import Mathlib

/-! # Bragg-curve: the forward and reverse stopping-power integrators

A shallow embedding of `dEdxByE.cxx` and `dEdxSliceX.cxx`.

* `double` values are rationals (`ℚ`).  The first embedding computes with them
  exactly; the embedding in `Binary64` rounds every operation to the nearest
  `double` and is the one used where a property depends on the rounding.
* The two constructor-set members of every integrator class, `fDeltaX` and
  `fDEdXGraph`, never change after construction; they are the parameters
  `deltaX` and `dEdXGraph` of the member functions.  `dEdXGraph e` is the value
  of `fDEdXGraph->Eval(e)`.
* A `while` loop is `whileNot done body fuel s`: it runs at most `fuel`
  iterations and yields `none` when the exit test is still false after them.
* The data file read by `ParseDEDXData` is a list of lines, each the list of the
  items that `operator>>` into a `double` meets: numbers, or text it cannot read.
-/

namespace BraggCurve

/-! ## Unit constants -/

/-- The unit constant `um`, declared `constexpr double um` with value `1`. -/
def um : ℚ := 1

/-- The unit constant `mm`, declared `constexpr double mm` with value `1000 * um`. -/
def mm : ℚ := 1000 * um

/-- The unit constant `MeV`, declared `constexpr double MeV` with value `1`. -/
def MeV : ℚ := 1

/-! ## Graphs -/

/-- The points of an output `TGraph`, in insertion order. -/
abbrev TGraph := List (ℚ × ℚ)

/-- Member function `TGraph::AddPoint(x, y)`: appends a point. -/
def AddPoint (g : TGraph) (x y : ℚ) : TGraph := g ++ [(x, y)]

/-- Modelled from the spec: the curve through two tabulated points
`(x0, y0)` and `(x1, y1)` evaluated by linear interpolation (the `Eval` of the
plotting library is not part of the repository). -/
def linearEval (x0 y0 x1 y1 : ℚ) (x : ℚ) : ℚ :=
  y0 + (x - x0) * (y1 - y0) / (x1 - x0)

/-! ## Loops -/

/-- The loop `while (not done(s)) s = body(s);` with at most `fuel` iterations. -/
def whileNot {σ : Type} (done : σ → Bool) (body : σ → σ) : Nat → σ → Option σ
  | 0, s => if done s then some s else none
  | fuel + 1, s => if done s then some s else whileNot done body fuel (body s)

/-! ## `dEdxByE.cxx` -/

/-- The mutable members of `class ParticleByE`. -/
structure ParticleByE where
  fRange : ℚ
  fEnergyPerNucleon : ℚ
  fDEDX : ℚ
  deriving DecidableEq

namespace ParticleByE

/-- Member function `ParticleByE::Initialize`. -/
def Initialize (dEdXGraph : ℚ → ℚ) (energyPerNucleon : ℚ) : ParticleByE :=
  { fRange := 0
    fEnergyPerNucleon := energyPerNucleon
    fDEDX := dEdXGraph energyPerNucleon }

/-- Member function `ParticleByE::Range`. -/
def Range (p : ParticleByE) : ℚ := p.fRange

/-- Member function `ParticleByE::EnergyPerNucleon`. -/
def EnergyPerNucleon (p : ParticleByE) : ℚ := p.fEnergyPerNucleon

/-- Member function `ParticleByE::DEDX`. -/
def DEDX (p : ParticleByE) : ℚ := p.fDEDX

/-- Member function `ParticleByE::Stopped`. -/
def Stopped (p : ParticleByE) : Bool := decide (p.fEnergyPerNucleon ≤ 0)

/-- Member function `ParticleByE::Step`. -/
def Step (deltaX : ℚ) (dEdXGraph : ℚ → ℚ) (p : ParticleByE) : ParticleByE :=
  let p1 := { p with fRange := p.fRange + deltaX }
  let p2 := { p1 with fEnergyPerNucleon := p1.fEnergyPerNucleon - p1.fDEDX * deltaX }
  if p2.Stopped then
    { p2 with fEnergyPerNucleon := 0, fDEDX := 0 }
  else
    { p2 with fDEDX := dEdXGraph p2.fEnergyPerNucleon }

end ParticleByE

/-- The mutable members of `class ReverseParticleByE`. -/
structure ReverseParticleByE where
  fDEDX : ℚ
  fEnergyPerNucleon : ℚ
  fRange : ℚ
  deriving DecidableEq

namespace ReverseParticleByE

/-- Member function `ReverseParticleByE::Initialize`. -/
def Initialize (range : ℚ) : ReverseParticleByE :=
  { fDEDX := 0, fEnergyPerNucleon := 0, fRange := range }

/-- Member function `ReverseParticleByE::DEDX`. -/
def DEDX (p : ReverseParticleByE) : ℚ := p.fDEDX

/-- Member function `ReverseParticleByE::EnergyPerNucleon`. -/
def EnergyPerNucleon (p : ReverseParticleByE) : ℚ := p.fEnergyPerNucleon

/-- Member function `ReverseParticleByE::Range`. -/
def Range (p : ReverseParticleByE) : ℚ := p.fRange

/-- Member function `ReverseParticleByE::Returned`. -/
def Returned (p : ReverseParticleByE) : Bool := decide (p.fRange ≤ 0)

/-- Member function `ReverseParticleByE::ReverseStep`. -/
def ReverseStep (deltaX : ℚ) (dEdXGraph : ℚ → ℚ) (p : ReverseParticleByE) :
    ReverseParticleByE :=
  let p1 := { p with fDEDX := dEdXGraph p.fEnergyPerNucleon }
  let p2 := { p1 with fEnergyPerNucleon := p1.fEnergyPerNucleon + p1.fDEDX * deltaX }
  let p3 := { p2 with fRange := p2.fRange - deltaX }
  if p3.Returned then { p3 with fRange := 0 } else p3

end ReverseParticleByE

/-- Function `ComputeRangeByE`: initialise, step until stopped, return the range. -/
def ComputeRangeByE (fuel : Nat) (energyPerNucleon deltaX : ℚ) (dEdXGraph : ℚ → ℚ) :
    Option ℚ :=
  (whileNot ParticleByE.Stopped (ParticleByE.Step deltaX dEdXGraph) fuel
    (ParticleByE.Initialize dEdXGraph energyPerNucleon)).map ParticleByE.Range

/-- The locals of `dEdxByE` when it reaches its end: the derived energy, the
forward particle and the recorded graph `result`. -/
structure ByERun where
  energyPerNucleon : ℚ
  particleByE : ParticleByE
  result : TGraph
  deriving DecidableEq

/-- The first loop of `dEdxByE`: the reverse particle after
`Initialize(targetRange * mm)` and `ReverseStep` until `Returned`. -/
def dEdxByE.reverse (fuel : Nat) (dEdXGraph : ℚ → ℚ) (targetRange deltaX : ℚ) :
    Option ReverseParticleByE :=
  whileNot ReverseParticleByE.Returned (ReverseParticleByE.ReverseStep deltaX dEdXGraph) fuel
    (ReverseParticleByE.Initialize (targetRange * mm))

/-- The body of the second loop of `dEdxByE`: one `Step`, then one `AddPoint`. -/
def dEdxByE.body (deltaX : ℚ) (dEdXGraph : ℚ → ℚ) (s : ParticleByE × TGraph) :
    ParticleByE × TGraph :=
  let particleByE := s.1.Step deltaX dEdXGraph
  (particleByE, AddPoint s.2 (particleByE.Range / mm) (particleByE.DEDX / (MeV / mm)))

/-- Function `dEdxByE`, from the parsed curve on (the curve stands for the data file). -/
def dEdxByE (fuel : Nat) (dEdXGraph : ℚ → ℚ) (targetRange deltaX : ℚ) : Option ByERun :=
  match dEdxByE.reverse fuel dEdXGraph targetRange deltaX with
  | none => none
  | some reverseParticleByE =>
    let energyPerNucleon := reverseParticleByE.EnergyPerNucleon
    let particleByE := ParticleByE.Initialize dEdXGraph energyPerNucleon
    let result := AddPoint [] (particleByE.Range / mm) (particleByE.DEDX / (MeV / mm))
    match whileNot (fun s => s.1.Stopped) (dEdxByE.body deltaX dEdXGraph) fuel
        (particleByE, result) with
    | none => none
    | some s => some { energyPerNucleon := energyPerNucleon, particleByE := s.1, result := s.2 }

/-! ## `dEdxSliceX.cxx` -/

/-- The mutable members of `class ParticleSliceX`. -/
structure ParticleSliceX where
  fRange : ℚ
  fEnergyPerNucleon : ℚ
  fDEDX : ℚ
  deriving DecidableEq

namespace ParticleSliceX

/-- Member function `ParticleSliceX::Initialize`. -/
def Initialize (dEdXGraph : ℚ → ℚ) (energyPerNucleon : ℚ) : ParticleSliceX :=
  { fRange := 0
    fEnergyPerNucleon := energyPerNucleon
    fDEDX := dEdXGraph energyPerNucleon }

/-- Member function `ParticleSliceX::Range`. -/
def Range (p : ParticleSliceX) : ℚ := p.fRange

/-- Member function `ParticleSliceX::EnergyPerNucleon`. -/
def EnergyPerNucleon (p : ParticleSliceX) : ℚ := p.fEnergyPerNucleon

/-- Member function `ParticleSliceX::DEDX`. -/
def DEDX (p : ParticleSliceX) : ℚ := p.fDEDX

/-- Member function `ParticleSliceX::Stopped`. -/
def Stopped (p : ParticleSliceX) : Bool := decide (p.fEnergyPerNucleon ≤ 0)

/-- Member function `ParticleSliceX::Step`. -/
def Step (deltaX : ℚ) (dEdXGraph : ℚ → ℚ) (p : ParticleSliceX) : ParticleSliceX :=
  let p1 := { p with fRange := p.fRange + deltaX }
  let p2 := { p1 with fEnergyPerNucleon := p1.fEnergyPerNucleon - p1.fDEDX * deltaX }
  if p2.Stopped then
    { p2 with fEnergyPerNucleon := 0, fDEDX := 0 }
  else
    { p2 with fDEDX := dEdXGraph p2.fEnergyPerNucleon }

end ParticleSliceX

/-- The mutable members of `class ReverseParticleSliceX`. -/
structure ReverseParticleSliceX where
  fDEDX : ℚ
  fEnergyPerNucleon : ℚ
  fRange : ℚ
  deriving DecidableEq

namespace ReverseParticleSliceX

/-- Member function `ReverseParticleSliceX::Initialize`. -/
def Initialize (range : ℚ) : ReverseParticleSliceX :=
  { fDEDX := 0, fEnergyPerNucleon := 0, fRange := range }

/-- Member function `ReverseParticleSliceX::DEDX`. -/
def DEDX (p : ReverseParticleSliceX) : ℚ := p.fDEDX

/-- Member function `ReverseParticleSliceX::EnergyPerNucleon`. -/
def EnergyPerNucleon (p : ReverseParticleSliceX) : ℚ := p.fEnergyPerNucleon

/-- Member function `ReverseParticleSliceX::Range`. -/
def Range (p : ReverseParticleSliceX) : ℚ := p.fRange

/-- Member function `ReverseParticleSliceX::Returned`. -/
def Returned (p : ReverseParticleSliceX) : Bool := decide (p.fRange ≤ 0)

/-- Member function `ReverseParticleSliceX::ReverseStep`. -/
def ReverseStep (deltaX : ℚ) (dEdXGraph : ℚ → ℚ) (p : ReverseParticleSliceX) :
    ReverseParticleSliceX :=
  let p1 := { p with fDEDX := dEdXGraph p.fEnergyPerNucleon }
  let p2 := { p1 with fEnergyPerNucleon := p1.fEnergyPerNucleon + p1.fDEDX * deltaX }
  let p3 := { p2 with fRange := p2.fRange - deltaX }
  if p3.Returned then { p3 with fRange := 0 } else p3

end ReverseParticleSliceX

/-- The locals of `dEdxSliceX` when it reaches its end: the derived (and
printed) energy, the forward particle and the recorded graph `braggCurve`. -/
structure SliceXRun where
  energyPerNucleon : ℚ
  particleSliceX : ParticleSliceX
  braggCurve : TGraph
  deriving DecidableEq

/-- The first loop of `dEdxSliceX`. -/
def dEdxSliceX.reverse (fuel : Nat) (dEdXGraph : ℚ → ℚ) (targetRange deltaX : ℚ) :
    Option ReverseParticleSliceX :=
  whileNot ReverseParticleSliceX.Returned
    (ReverseParticleSliceX.ReverseStep deltaX dEdXGraph) fuel
    (ReverseParticleSliceX.Initialize (targetRange * mm))

/-- The body of the second loop of `dEdxSliceX`: one `Step`, then one `AddPoint`. -/
def dEdxSliceX.body (deltaX : ℚ) (dEdXGraph : ℚ → ℚ) (s : ParticleSliceX × TGraph) :
    ParticleSliceX × TGraph :=
  let particleSliceX := s.1.Step deltaX dEdXGraph
  (particleSliceX,
    AddPoint s.2 (particleSliceX.Range / mm) (particleSliceX.DEDX / (MeV / mm)))

/-- Function `dEdxSliceX`, from the parsed curve on (the curve stands for the data file). -/
def dEdxSliceX (fuel : Nat) (dEdXGraph : ℚ → ℚ) (targetRange deltaX : ℚ) :
    Option SliceXRun :=
  match dEdxSliceX.reverse fuel dEdXGraph targetRange deltaX with
  | none => none
  | some reverseParticleSliceX =>
    let energyPerNucleon := reverseParticleSliceX.EnergyPerNucleon
    let particleSliceX := ParticleSliceX.Initialize dEdXGraph energyPerNucleon
    let braggCurve :=
      AddPoint [] (particleSliceX.Range / mm) (particleSliceX.DEDX / (MeV / mm))
    match whileNot (fun s => s.1.Stopped) (dEdxSliceX.body deltaX dEdXGraph) fuel
        (particleSliceX, braggCurve) with
    | none => none
    | some s =>
      some { energyPerNucleon := energyPerNucleon, particleSliceX := s.1, braggCurve := s.2 }

/-! ## Bridges between the two files

The classes of `dEdxSliceX.cxx` have the members of those of `dEdxByE.cxx`. -/

/-- The `ParticleByE` with the members of a `ParticleSliceX`. -/
def ParticleSliceX.toByE (p : ParticleSliceX) : ParticleByE :=
  { fRange := p.fRange, fEnergyPerNucleon := p.fEnergyPerNucleon, fDEDX := p.fDEDX }

/-- The `ReverseParticleByE` with the members of a `ReverseParticleSliceX`. -/
def ReverseParticleSliceX.toByE (p : ReverseParticleSliceX) : ReverseParticleByE :=
  { fDEDX := p.fDEDX, fEnergyPerNucleon := p.fEnergyPerNucleon, fRange := p.fRange }

/-- The recorded sample of a forward particle: `(Range() / mm, DEDX() / (MeV / mm))`. -/
def sample (p : ParticleByE) : ℚ × ℚ := (p.Range / mm, p.DEDX / (MeV / mm))

/-- The run of `dEdxByE` with the locals of a run of `dEdxSliceX`. -/
def SliceXRun.toByE (r : SliceXRun) : ByERun :=
  { energyPerNucleon := r.energyPerNucleon
    particleByE := r.particleSliceX.toByE
    result := r.braggCurve }

/-- The forward particle of the Bragg loop after `k` steps from `Initialize(e)`. -/
def forwardState (deltaX : ℚ) (dEdXGraph : ℚ → ℚ) (e : ℚ) (k : Nat) : ParticleByE :=
  (ParticleByE.Step deltaX dEdXGraph)^[k] (ParticleByE.Initialize dEdXGraph e)

/-- The reverse particle after `k` reverse steps from `Initialize(r)`. -/
def reverseState (deltaX : ℚ) (dEdXGraph : ℚ → ℚ) (r : ℚ) (k : Nat) : ReverseParticleByE :=
  (ReverseParticleByE.ReverseStep deltaX dEdXGraph)^[k] (ReverseParticleByE.Initialize r)

/-- The second part of `dEdxByE` ("Calculate Bragg curve"): the forward particle
and the graph `result` after `Initialize(energyPerNucleon)`, the first `AddPoint`
and the loop. -/
def dEdxByE.forward (fuel : Nat) (dEdXGraph : ℚ → ℚ) (deltaX energyPerNucleon : ℚ) :
    Option (ParticleByE × TGraph) :=
  let particleByE := ParticleByE.Initialize dEdXGraph energyPerNucleon
  let result := AddPoint [] (particleByE.Range / mm) (particleByE.DEDX / (MeV / mm))
  whileNot (fun s => s.1.Stopped) (dEdxByE.body deltaX dEdXGraph) fuel (particleByE, result)

/-- The energy that `Step` computes on the way to the forward state after `k`
steps, before its `if (Stopped())` replaces a value `≤ 0` by `0`. -/
def unclampedEnergy (deltaX : ℚ) (dEdXGraph : ℚ → ℚ) (e : ℚ) : Nat → ℚ
  | 0 => e
  | k + 1 =>
    (forwardState deltaX dEdXGraph e k).fEnergyPerNucleon -
      (forwardState deltaX dEdXGraph e k).fDEDX * deltaX

/-! ## `ParseDEDXData`

A line of the data file is the list of the items that `operator>>` meets in it:
a `number` is text that reads as a `double`, `text` is text that does not. -/

/-- One item of a line, as `operator>>` into a `double` sees it.  A numeral too
large for a `double` is not modelled. -/
inductive Token where
  | number (value : ℚ)
  | text
  deriving DecidableEq

/-- A `std::stringstream` over a line: what is left to read, and the fail bit. -/
structure StringStream where
  rest : List Token
  failed : Bool
  deriving DecidableEq

/-- The extraction `ss >> v` into a `double`: nothing happens once the stream has
failed; at the end of the line the stream fails and `v` is kept; a number is read
into `v`; text makes the stream fail and stores `0`. -/
def StringStream.extract (ss : StringStream) (v : ℚ) : StringStream × ℚ :=
  if ss.failed then (ss, v)
  else
    match ss.rest with
    | [] => ({ ss with failed := true }, v)
    | Token.number q :: rest => ({ rest := rest, failed := false }, q)
    | Token.text :: rest => ({ rest := Token.text :: rest, failed := true }, 0)

/-- The locals `energy`, `r[10]` and `dummy` of `ParseDEDXData`, declared before
the loop and kept from one row to the next. -/
structure ParseVars where
  energy : ℚ
  r : Nat → ℚ
  dummy : ℚ

/-- The extraction `>> energy`. -/
def readEnergy (s : StringStream × ParseVars) : StringStream × ParseVars :=
  ((s.1.extract s.2.energy).1, { s.2 with energy := (s.1.extract s.2.energy).2 })

/-- The extraction `>> r[i]`. -/
def readR (i : Nat) (s : StringStream × ParseVars) : StringStream × ParseVars :=
  ((s.1.extract (s.2.r i)).1,
    { s.2 with r := Function.update s.2.r i (s.1.extract (s.2.r i)).2 })

/-- The extraction `>> dummy`. -/
def readDummy (s : StringStream × ParseVars) : StringStream × ParseVars :=
  ((s.1.extract s.2.dummy).1, { s.2 with dummy := (s.1.extract s.2.dummy).2 })

/-- The statement `ss >> energy >> r[0] >> dummy >> r[1] >> ... >> dummy >> r[9]`
on a fresh stream over the line `str`. -/
def readRow (vars : ParseVars) (str : List Token) : ParseVars :=
  ((({ rest := str, failed := false } : StringStream), vars)
    |> readEnergy |> readR 0 |> readDummy |> readR 1 |> readDummy |> readR 2
    |> readDummy |> readR 3 |> readDummy |> readR 4
    |> readDummy |> readR 5 |> readDummy |> readR 6 |> readDummy |> readR 7
    |> readDummy |> readR 8 |> readDummy |> readR 9).2

/-- The loop `while (std::getline(dataFile, str))` of `ParseDEDXData`: every line
is read into the locals and the point `(energy, r[4])` is added. -/
def ParseDEDXData.loop (vars : ParseVars) (dEdXGraph : TGraph) : List (List Token) → TGraph
  | [] => dEdXGraph
  | str :: lines =>
    ParseDEDXData.loop (readRow vars str)
      (AddPoint dEdXGraph (readRow vars str).energy ((readRow vars str).r 4)) lines

/-- Function `ParseDEDXData`.  The file is `none` when it cannot be opened, else
its lines; `vars` holds the values the uninitialised locals start with.  The
first three lines are skipped. -/
def ParseDEDXData (vars : ParseVars) (dataFile : Option (List (List Token))) :
    Option TGraph :=
  match dataFile with
  | none => none
  | some lines => some (ParseDEDXData.loop vars [] (lines.drop 3))

/-- A data row: an energy followed by ten pairs of a value and a token. -/
structure Row where
  energy : ℚ
  value : Nat → ℚ
  token : Nat → Token

/-- The line of a data row. -/
def Row.line (row : Row) : List Token :=
  [Token.number row.energy,
    Token.number (row.value 0), row.token 0, Token.number (row.value 1), row.token 1,
    Token.number (row.value 2), row.token 2, Token.number (row.value 3), row.token 3,
    Token.number (row.value 4), row.token 4, Token.number (row.value 5), row.token 5,
    Token.number (row.value 6), row.token 6, Token.number (row.value 7), row.token 7,
    Token.number (row.value 8), row.token 8, Token.number (row.value 9), row.token 9]

/-! ## Binary64 arithmetic

The same integrators with every `+`, `-` and `*` of the source rounded to the
nearest `double` (ties to even).  Values are finite doubles, kept as the
rationals they denote; overflow to infinity and NaN are not modelled. -/

/-- The nearest integer, ties to the even one. -/
def roundHalfEven (q : ℚ) : ℤ :=
  if q - ⌊q⌋ < 1 / 2 then ⌊q⌋
  else if 1 / 2 < q - ⌊q⌋ then ⌊q⌋ + 1
  else if ⌊q⌋ % 2 = 0 then ⌊q⌋ else ⌊q⌋ + 1

/-- The exponent of the unit in the last place of the doubles around `x`: 53
significant bits, and the subnormal spacing `2 ^ (-1074)` below `2 ^ (-1022)`. -/
def ulpExp (x : ℚ) : ℤ := max (Int.log 2 |x|) (-1022) - 52

/-- The `double` nearest to `x`, ties to even. -/
def roundDouble (x : ℚ) : ℚ := roundHalfEven (x / 2 ^ ulpExp x) * 2 ^ ulpExp x

/-- The sum `x + y` of two doubles, as a double. -/
def fadd (x y : ℚ) : ℚ := roundDouble (x + y)

/-- The difference `x - y` of two doubles, as a double. -/
def fsub (x y : ℚ) : ℚ := roundDouble (x - y)

/-- The product `x * y` of two doubles, as a double. -/
def fmul (x y : ℚ) : ℚ := roundDouble (x * y)

/-- The `double` that the literal `0.1` denotes. -/
def tenth : ℚ := 3602879701896397 / 36028797018963968

/-- Member function `ParticleByE::Step` in binary64 arithmetic. -/
def Binary64.Step (deltaX : ℚ) (dEdXGraph : ℚ → ℚ) (p : ParticleByE) : ParticleByE :=
  let p1 := { p with fRange := fadd p.fRange deltaX }
  let p2 := { p1 with
    fEnergyPerNucleon := fsub p1.fEnergyPerNucleon (fmul p1.fDEDX deltaX) }
  if p2.Stopped then
    { p2 with fEnergyPerNucleon := 0, fDEDX := 0 }
  else
    { p2 with fDEDX := dEdXGraph p2.fEnergyPerNucleon }

/-- Member function `ReverseParticleByE::ReverseStep` in binary64 arithmetic. -/
def Binary64.ReverseStep (deltaX : ℚ) (dEdXGraph : ℚ → ℚ) (p : ReverseParticleByE) :
    ReverseParticleByE :=
  let p1 := { p with fDEDX := dEdXGraph p.fEnergyPerNucleon }
  let p2 := { p1 with
    fEnergyPerNucleon := fadd p1.fEnergyPerNucleon (fmul p1.fDEDX deltaX) }
  let p3 := { p2 with fRange := fsub p2.fRange deltaX }
  if p3.Returned then { p3 with fRange := 0 } else p3

/-- Function `ComputeRangeByE` in binary64 arithmetic. -/
def Binary64.ComputeRangeByE (fuel : Nat) (energyPerNucleon deltaX : ℚ)
    (dEdXGraph : ℚ → ℚ) : Option ℚ :=
  (whileNot ParticleByE.Stopped (Binary64.Step deltaX dEdXGraph) fuel
    (ParticleByE.Initialize dEdXGraph energyPerNucleon)).map ParticleByE.Range

/-- The forward particle after `k` binary64 steps from `Initialize(e)`. -/
def Binary64.forwardState (deltaX : ℚ) (dEdXGraph : ℚ → ℚ) (e : ℚ) (k : Nat) :
    ParticleByE :=
  (Binary64.Step deltaX dEdXGraph)^[k] (ParticleByE.Initialize dEdXGraph e)

/-- The reverse particle after `k` binary64 reverse steps from `Initialize(r)`. -/
def Binary64.reverseState (deltaX : ℚ) (dEdXGraph : ℚ → ℚ) (r : ℚ) (k : Nat) :
    ReverseParticleByE :=
  (Binary64.ReverseStep deltaX dEdXGraph)^[k] (ReverseParticleByE.Initialize r)

/-! ## Loop lemmas -/

theorem whileNot_of_iterate {σ : Type} (done : σ → Bool) (body : σ → σ) :
    ∀ (n fuel : Nat) (s : σ), n ≤ fuel → (∀ k, k < n → done (body^[k] s) = false) →
      done (body^[n] s) = true → whileNot done body fuel s = some (body^[n] s) := by
  intro n
  induction n with
  | zero =>
    intro fuel s _ _ hd
    cases fuel <;> simp_all [whileNot]
  | succ n ih =>
    intro fuel s hle hk hd
    have h0 : done s = false := by simpa using hk 0 (Nat.succ_pos n)
    cases fuel with
    | zero => omega
    | succ fuel =>
      simp only [whileNot, h0, Bool.false_eq_true, if_false]
      rw [Function.iterate_succ_apply]
      apply ih fuel (body s) (by omega)
      · intro k hkn
        have := hk (k + 1) (by omega)
        rwa [Function.iterate_succ_apply] at this
      · rwa [Function.iterate_succ_apply] at hd

theorem whileNot_some {σ : Type} (done : σ → Bool) (body : σ → σ) :
    ∀ (fuel : Nat) (s t : σ), whileNot done body fuel s = some t →
      ∃ n, n ≤ fuel ∧ t = body^[n] s ∧ done t = true ∧
        ∀ k, k < n → done (body^[k] s) = false := by
  intro fuel
  induction fuel with
  | zero =>
    intro s t h
    by_cases hd : done s = true
    · simp [whileNot, hd] at h
      exact ⟨0, le_refl _, by simp [h], by simpa [← h] using hd, by simp⟩
    · simp [whileNot, hd] at h
  | succ fuel ih =>
    intro s t h
    by_cases hd : done s = true
    · simp [whileNot, hd] at h
      exact ⟨0, Nat.zero_le _, by simp [h], by simpa [← h] using hd, by simp⟩
    · simp only [whileNot, hd, if_false] at h
      obtain ⟨n, hn, ht, hdt, hk⟩ := ih (body s) t h
      refine ⟨n + 1, by omega, by rw [Function.iterate_succ_apply]; exact ht, hdt, ?_⟩
      intro k hkn
      cases k with
      | zero => simpa using hd
      | succ k =>
        rw [Function.iterate_succ_apply]
        exact hk k (by omega)

theorem whileNot_never {σ : Type} (done : σ → Bool) (body : σ → σ) (s : σ)
    (h : ∀ k, done (body^[k] s) = false) (fuel : Nat) : whileNot done body fuel s = none := by
  cases hw : whileNot done body fuel s with
  | none => rfl
  | some t =>
    obtain ⟨n, _, ht, hdt, _⟩ := whileNot_some done body fuel s t hw
    rw [ht, h n] at hdt
    exact absurd hdt (by simp)

theorem whileNot_map {σ τ : Type} (f : σ → τ) (done : σ → Bool) (body : σ → σ)
    (done' : τ → Bool) (body' : τ → τ) (hd : ∀ s, done' (f s) = done s)
    (hb : ∀ s, body' (f s) = f (body s)) :
    ∀ (fuel : Nat) (s : σ),
      whileNot done' body' fuel (f s) = (whileNot done body fuel s).map f := by
  intro fuel
  induction fuel with
  | zero =>
    intro s
    by_cases h : done s = true <;> simp [whileNot, hd, h]
  | succ fuel ih =>
    intro s
    by_cases h : done s = true
    · simp [whileNot, hd, h]
    · simp only [whileNot, hd, h, if_false, hb]
      exact ih (body s)

/-! ## The forward integrator -/

namespace ParticleByE

theorem Stopped_iff (p : ParticleByE) : p.Stopped = true ↔ p.fEnergyPerNucleon ≤ 0 := by
  simp [Stopped]

theorem Stopped_false_iff (p : ParticleByE) :
    p.Stopped = false ↔ 0 < p.fEnergyPerNucleon := by
  simp [Stopped]

theorem Step_fRange (deltaX : ℚ) (S : ℚ → ℚ) (p : ParticleByE) :
    (p.Step deltaX S).fRange = p.fRange + deltaX := by
  unfold Step
  dsimp only
  split <;> rfl

theorem Step_of_le (deltaX : ℚ) (S : ℚ → ℚ) (p : ParticleByE)
    (h : p.fEnergyPerNucleon - p.fDEDX * deltaX ≤ 0) :
    p.Step deltaX S = ⟨p.fRange + deltaX, 0, 0⟩ := by
  unfold Step
  simp [Stopped, h]

theorem Step_of_pos (deltaX : ℚ) (S : ℚ → ℚ) (p : ParticleByE)
    (h : 0 < p.fEnergyPerNucleon - p.fDEDX * deltaX) :
    p.Step deltaX S = ⟨p.fRange + deltaX, p.fEnergyPerNucleon - p.fDEDX * deltaX,
      S (p.fEnergyPerNucleon - p.fDEDX * deltaX)⟩ := by
  unfold Step
  simp [Stopped, not_le.mpr h]

theorem Step_energy_nonneg (deltaX : ℚ) (S : ℚ → ℚ) (p : ParticleByE) :
    0 ≤ (p.Step deltaX S).fEnergyPerNucleon := by
  rcases le_or_lt (p.fEnergyPerNucleon - p.fDEDX * deltaX) 0 with h | h
  · rw [Step_of_le deltaX S p h]
  · rw [Step_of_pos deltaX S p h]
    exact le_of_lt h

theorem iterate_fRange (deltaX : ℚ) (S : ℚ → ℚ) (p : ParticleByE) (n : Nat) :
    ((Step deltaX S)^[n] p).fRange = p.fRange + n * deltaX := by
  induction n with
  | zero => simp
  | succ n ih =>
    rw [Function.iterate_succ_apply', Step_fRange, ih]
    push_cast
    ring

end ParticleByE

/-! ## The reverse integrator -/

namespace ReverseParticleByE

theorem Returned_iff (p : ReverseParticleByE) : p.Returned = true ↔ p.fRange ≤ 0 := by
  simp [Returned]

theorem Returned_false_iff (p : ReverseParticleByE) : p.Returned = false ↔ 0 < p.fRange := by
  simp [Returned]

theorem ReverseStep_eq (deltaX : ℚ) (S : ℚ → ℚ) (p : ReverseParticleByE) :
    p.ReverseStep deltaX S =
      ⟨S p.fEnergyPerNucleon, p.fEnergyPerNucleon + S p.fEnergyPerNucleon * deltaX,
        if p.fRange - deltaX ≤ 0 then 0 else p.fRange - deltaX⟩ := by
  unfold ReverseStep
  by_cases h : p.fRange - deltaX ≤ 0 <;> simp [Returned, h]

end ReverseParticleByE

/-! ## The classes of `dEdxSliceX.cxx` are those of `dEdxByE.cxx` -/

theorem ParticleSliceX.toByE_Step (deltaX : ℚ) (S : ℚ → ℚ) (p : ParticleSliceX) :
    (p.Step deltaX S).toByE = p.toByE.Step deltaX S := by
  unfold ParticleSliceX.Step ParticleByE.Step ParticleSliceX.toByE
  by_cases h : p.fEnergyPerNucleon - p.fDEDX * deltaX ≤ 0 <;>
    simp [ParticleSliceX.Stopped, ParticleByE.Stopped, h]

theorem ParticleSliceX.toByE_Stopped (p : ParticleSliceX) :
    p.toByE.Stopped = p.Stopped := rfl

theorem ParticleSliceX.toByE_Initialize (S : ℚ → ℚ) (e : ℚ) :
    (ParticleSliceX.Initialize S e).toByE = ParticleByE.Initialize S e := rfl

theorem ReverseParticleSliceX.toByE_ReverseStep (deltaX : ℚ) (S : ℚ → ℚ)
    (p : ReverseParticleSliceX) :
    (p.ReverseStep deltaX S).toByE = p.toByE.ReverseStep deltaX S := by
  unfold ReverseParticleSliceX.ReverseStep ReverseParticleByE.ReverseStep
    ReverseParticleSliceX.toByE
  by_cases h : p.fRange - deltaX ≤ 0 <;>
    simp [ReverseParticleSliceX.Returned, ReverseParticleByE.Returned, h]

theorem ReverseParticleSliceX.toByE_Returned (p : ReverseParticleSliceX) :
    p.toByE.Returned = p.Returned := rfl

/-! ## The builders -/

theorem body_iterate (deltaX : ℚ) (S : ℚ → ℚ) (p : ParticleByE) (g : TGraph) (n : Nat) :
    (dEdxByE.body deltaX S)^[n] (p, g) =
      ((ParticleByE.Step deltaX S)^[n] p,
        g ++ (List.range n).map (fun k => sample ((ParticleByE.Step deltaX S)^[k + 1] p))) := by
  induction n with
  | zero => simp
  | succ n ih =>
    rw [Function.iterate_succ_apply', ih, List.range_succ, List.map_append]
    simp only [dEdxByE.body, AddPoint, sample, List.map_cons, List.map_nil,
      List.append_assoc, ← Function.iterate_succ_apply' (ParticleByE.Step deltaX S)]

theorem samples_from_init (f : Nat → ℚ × ℚ) (n : Nat) :
    AddPoint [] (f 0).1 (f 0).2 ++ (List.range n).map (fun k => f (k + 1)) =
      (List.range (n + 1)).map f := by
  rw [List.range_succ_eq_map]
  simp [AddPoint, List.map_map, Function.comp_def]

/-- A run of `dEdxByE` that returns: the step counts of its two loops and what
it leaves in its locals. -/
theorem dEdxByE_some (fuel : Nat) (S : ℚ → ℚ) (targetRange deltaX : ℚ) (out : ByERun)
    (h : dEdxByE fuel S targetRange deltaX = some out) :
    ∃ m n, m ≤ fuel ∧ n ≤ fuel ∧
      (reverseState deltaX S (targetRange * mm) m).Returned = true ∧
      (∀ k, k < m → (reverseState deltaX S (targetRange * mm) k).Returned = false) ∧
      out.energyPerNucleon = (reverseState deltaX S (targetRange * mm) m).fEnergyPerNucleon ∧
      out.particleByE = forwardState deltaX S out.energyPerNucleon n ∧
      (forwardState deltaX S out.energyPerNucleon n).Stopped = true ∧
      (∀ k, k < n → (forwardState deltaX S out.energyPerNucleon k).Stopped = false) ∧
      out.result =
        (List.range (n + 1)).map (fun k => sample (forwardState deltaX S out.energyPerNucleon k)) := by
  unfold dEdxByE at h
  cases hr : dEdxByE.reverse fuel S targetRange deltaX with
  | none => simp [hr] at h
  | some rev =>
    simp only [hr] at h
    cases hf : whileNot (fun s => s.1.Stopped) (dEdxByE.body deltaX S) fuel
        (ParticleByE.Initialize S rev.EnergyPerNucleon,
          AddPoint [] ((ParticleByE.Initialize S rev.EnergyPerNucleon).Range / mm)
            ((ParticleByE.Initialize S rev.EnergyPerNucleon).DEDX / (MeV / mm))) with
    | none => simp [hf] at h
    | some st =>
      simp only [hf, Option.some.injEq] at h
      obtain ⟨m, hm, hrev, hret, hnret⟩ := whileNot_some _ _ fuel _ rev hr
      obtain ⟨n, hn, hst, hstop, hnstop⟩ := whileNot_some _ _ fuel _ st hf
      rw [body_iterate] at hst
      have hE : out.energyPerNucleon = rev.fEnergyPerNucleon := by rw [← h]; rfl
      refine ⟨m, n, hm, hn, ?_, hnret, ?_, ?_, ?_, ?_, ?_⟩
      · rw [hrev] at hret; exact hret
      · rw [hE, hrev]; rfl
      · rw [hE, ← h, hst]; rfl
      · rw [hst] at hstop; rw [hE]; exact hstop
      · intro k hk
        have := hnstop k hk
        rw [body_iterate] at this
        rw [hE]; exact this
      · rw [hE, ← h, hst]
        exact samples_from_init
          (fun k => sample ((ParticleByE.Step deltaX S)^[k]
            (ParticleByE.Initialize S rev.EnergyPerNucleon))) n

/-- The converse: when the reverse loop returns after `m` steps and the forward
loop stops after `n` steps, `dEdxByE` returns with enough fuel. -/
theorem dEdxByE_of_steps (fuel : Nat) (S : ℚ → ℚ) (targetRange deltaX : ℚ) (m n : Nat)
    (hm : m ≤ fuel) (hn : n ≤ fuel)
    (hret : (reverseState deltaX S (targetRange * mm) m).Returned = true)
    (hnret : ∀ k, k < m → (reverseState deltaX S (targetRange * mm) k).Returned = false)
    (hstop : (forwardState deltaX S
      (reverseState deltaX S (targetRange * mm) m).fEnergyPerNucleon n).Stopped = true)
    (hnstop : ∀ k, k < n → (forwardState deltaX S
      (reverseState deltaX S (targetRange * mm) m).fEnergyPerNucleon k).Stopped = false) :
    dEdxByE fuel S targetRange deltaX = some
      { energyPerNucleon := (reverseState deltaX S (targetRange * mm) m).fEnergyPerNucleon
        particleByE := forwardState deltaX S
          (reverseState deltaX S (targetRange * mm) m).fEnergyPerNucleon n
        result := (List.range (n + 1)).map (fun k => sample (forwardState deltaX S
          (reverseState deltaX S (targetRange * mm) m).fEnergyPerNucleon k)) } := by
  have hr : dEdxByE.reverse fuel S targetRange deltaX =
      some (reverseState deltaX S (targetRange * mm) m) :=
    whileNot_of_iterate _ _ m fuel _ hm hnret hret
  unfold dEdxByE
  simp only [hr]
  have hf := whileNot_of_iterate (fun s : ParticleByE × TGraph => s.1.Stopped)
    (dEdxByE.body deltaX S) n fuel
    (ParticleByE.Initialize S (reverseState deltaX S (targetRange * mm) m).EnergyPerNucleon,
      AddPoint [] ((ParticleByE.Initialize S
          (reverseState deltaX S (targetRange * mm) m).EnergyPerNucleon).Range / mm)
        ((ParticleByE.Initialize S
          (reverseState deltaX S (targetRange * mm) m).EnergyPerNucleon).DEDX / (MeV / mm)))
    hn (by intro k hk; rw [body_iterate]; exact hnstop k hk)
    (by rw [body_iterate]; exact hstop)
  rw [hf, body_iterate]
  simp only [Option.some.injEq]
  congr 1
  exact samples_from_init
    (fun k => sample ((ParticleByE.Step deltaX S)^[k]
      (ParticleByE.Initialize S
        (reverseState deltaX S (targetRange * mm) m).EnergyPerNucleon))) n

/-- The builder of `dEdxSliceX.cxx` computes what that of `dEdxByE.cxx` does. -/
theorem dEdxSliceX_toByE (fuel : Nat) (S : ℚ → ℚ) (targetRange deltaX : ℚ) :
    (dEdxSliceX fuel S targetRange deltaX).map SliceXRun.toByE =
      dEdxByE fuel S targetRange deltaX := by
  have hrev : dEdxByE.reverse fuel S targetRange deltaX =
      (dEdxSliceX.reverse fuel S targetRange deltaX).map ReverseParticleSliceX.toByE :=
    whileNot_map ReverseParticleSliceX.toByE _ _ _ _
      ReverseParticleSliceX.toByE_Returned
      (fun s => (ReverseParticleSliceX.toByE_ReverseStep deltaX S s).symm) fuel
      (ReverseParticleSliceX.Initialize (targetRange * mm))
  unfold dEdxSliceX dEdxByE
  rw [hrev]
  cases dEdxSliceX.reverse fuel S targetRange deltaX with
  | none => rfl
  | some rev =>
    simp only [Option.map_some']
    have hfw : whileNot (fun s : ParticleByE × TGraph => s.1.Stopped) (dEdxByE.body deltaX S)
        fuel (ParticleByE.Initialize S rev.toByE.EnergyPerNucleon,
          AddPoint [] ((ParticleByE.Initialize S rev.toByE.EnergyPerNucleon).Range / mm)
            ((ParticleByE.Initialize S rev.toByE.EnergyPerNucleon).DEDX / (MeV / mm))) =
        (whileNot (fun s : ParticleSliceX × TGraph => s.1.Stopped)
          (dEdxSliceX.body deltaX S) fuel
          (ParticleSliceX.Initialize S rev.EnergyPerNucleon,
            AddPoint [] ((ParticleSliceX.Initialize S rev.EnergyPerNucleon).Range / mm)
              ((ParticleSliceX.Initialize S rev.EnergyPerNucleon).DEDX / (MeV / mm)))).map
          (fun s : ParticleSliceX × TGraph => (s.1.toByE, s.2)) :=
      whileNot_map
        (fun s : ParticleSliceX × TGraph => (s.1.toByE, s.2))
        (fun s => s.1.Stopped) (dEdxSliceX.body deltaX S)
        (fun s : ParticleByE × TGraph => s.1.Stopped) (dEdxByE.body deltaX S)
        (fun s => ParticleSliceX.toByE_Stopped s.1)
        (fun s => by
          simp only [dEdxByE.body, dEdxSliceX.body]
          rw [← ParticleSliceX.toByE_Step]
          rfl) fuel
        (ParticleSliceX.Initialize S rev.EnergyPerNucleon,
          AddPoint [] ((ParticleSliceX.Initialize S rev.EnergyPerNucleon).Range / mm)
            ((ParticleSliceX.Initialize S rev.EnergyPerNucleon).DEDX / (MeV / mm)))
    rw [hfw]
    cases whileNot (fun s => s.1.Stopped) (dEdxSliceX.body deltaX S) fuel
      (ParticleSliceX.Initialize S rev.EnergyPerNucleon,
        AddPoint [] ((ParticleSliceX.Initialize S rev.EnergyPerNucleon).Range / mm)
          ((ParticleSliceX.Initialize S rev.EnergyPerNucleon).DEDX / (MeV / mm))) with
    | none => rfl
    | some st => rfl

/-! ## Termination of the loops -/

theorem whileNot_fuel_mono {σ : Type} (done : σ → Bool) (body : σ → σ) (s t : σ)
    (fuel fuel' : Nat) (hle : fuel ≤ fuel') (h : whileNot done body fuel s = some t) :
    whileNot done body fuel' s = some t := by
  obtain ⟨n, hn, ht, hdt, hk⟩ := whileNot_some done body fuel s t h
  rw [ht]
  exact whileNot_of_iterate done body n fuel' s (le_trans hn hle) hk (ht ▸ hdt)

theorem reverseState_succ (deltaX : ℚ) (S : ℚ → ℚ) (r : ℚ) (k : Nat) :
    reverseState deltaX S r (k + 1) = (reverseState deltaX S r k).ReverseStep deltaX S := by
  unfold reverseState
  rw [Function.iterate_succ_apply']

theorem forwardState_succ (deltaX : ℚ) (S : ℚ → ℚ) (e : ℚ) (k : Nat) :
    forwardState deltaX S e (k + 1) = (forwardState deltaX S e k).Step deltaX S := by
  unfold forwardState
  rw [Function.iterate_succ_apply']

/-- The energy of the reverse particle after `k` reverse steps does not depend on
the range: it is the `k`-th iterate of `e ↦ e + S e * deltaX` at `0`. -/
theorem reverseState_energy (deltaX : ℚ) (S : ℚ → ℚ) (r : ℚ) (k : Nat) :
    (reverseState deltaX S r k).fEnergyPerNucleon = (fun e => e + S e * deltaX)^[k] 0 := by
  induction k with
  | zero => rfl
  | succ k ih =>
    rw [reverseState_succ, ReverseParticleByE.ReverseStep_eq, Function.iterate_succ_apply', ← ih]

theorem reverseState_range_of_lt (deltaX : ℚ) (S : ℚ → ℚ) (r : ℚ) (hdx : 0 < deltaX) :
    ∀ k : Nat, (k : ℚ) * deltaX < r → (reverseState deltaX S r k).fRange = r - k * deltaX := by
  intro k
  induction k with
  | zero => intro _; simp [reverseState, ReverseParticleByE.Initialize]
  | succ k ih =>
    intro hk
    push_cast at hk
    have hk' : (k : ℚ) * deltaX < r := by nlinarith
    rw [reverseState_succ, ReverseParticleByE.ReverseStep_eq, ih hk']
    have : ¬ (r - k * deltaX - deltaX ≤ 0) := by
      rw [not_le]; linarith
    simp only [this, if_false]
    push_cast
    ring

theorem reverseState_range_of_le (deltaX : ℚ) (S : ℚ → ℚ) (r : ℚ) (hdx : 0 < deltaX)
    (k : Nat) (hlt : (k : ℚ) * deltaX < r) (hle : r ≤ ((k : ℚ) + 1) * deltaX) :
    (reverseState deltaX S r (k + 1)).fRange = 0 := by
  rw [reverseState_succ, ReverseParticleByE.ReverseStep_eq,
    reverseState_range_of_lt deltaX S r hdx k hlt]
  have : r - k * deltaX - deltaX ≤ 0 := by linarith
  simp [this]

/-- With a positive step the reverse loop returns after exactly `⌈r / deltaX⌉`
reverse steps, whatever the curve. -/
theorem reverse_returns (deltaX : ℚ) (S : ℚ → ℚ) (r : ℚ) (hdx : 0 < deltaX) :
    (reverseState deltaX S r ⌈r / deltaX⌉₊).Returned = true ∧
      (∀ k, k < ⌈r / deltaX⌉₊ → (reverseState deltaX S r k).Returned = false) ∧
      (0 < r → (reverseState deltaX S r ⌈r / deltaX⌉₊).fRange = 0) := by
  have hlt : ∀ k : Nat, k < ⌈r / deltaX⌉₊ → (k : ℚ) * deltaX < r := by
    intro k hk
    have := Nat.lt_ceil.mp hk
    rwa [lt_div_iff₀ hdx] at this
  have hfin : 0 < r → (reverseState deltaX S r ⌈r / deltaX⌉₊).fRange = 0 := by
    intro hr
    have hpos : 0 < ⌈r / deltaX⌉₊ := Nat.ceil_pos.mpr (div_pos hr hdx)
    obtain ⟨k, hk⟩ := Nat.exists_eq_succ_of_ne_zero (Nat.pos_iff_ne_zero.mp hpos)
    have h1 := hlt k (by omega)
    have h2 : r / deltaX ≤ ((k + 1 : Nat) : ℚ) := by
      rw [← Nat.succ_eq_add_one, ← hk]; exact Nat.le_ceil _
    rw [div_le_iff₀ hdx] at h2
    push_cast at h2
    rw [hk]
    exact reverseState_range_of_le deltaX S r hdx k h1 h2
  refine ⟨?_, ?_, hfin⟩
  · rw [ReverseParticleByE.Returned_iff]
    rcases le_or_lt r 0 with hr | hr
    · have : ⌈r / deltaX⌉₊ = 0 := by
        rw [Nat.ceil_eq_zero]
        exact div_nonpos_of_nonpos_of_nonneg hr (le_of_lt hdx)
      rw [this]
      simpa [reverseState, ReverseParticleByE.Initialize] using hr
    · rw [hfin hr]
  · intro k hk
    rw [ReverseParticleByE.Returned_false_iff,
      reverseState_range_of_lt deltaX S r hdx k (hlt k hk)]
    linarith [hlt k hk]

/-- Every forward state is either freshly evaluated on the curve or clamped. -/
theorem forwardState_inv (deltaX : ℚ) (S : ℚ → ℚ) (e : ℚ) (k : Nat) :
    (forwardState deltaX S e k).fDEDX = S (forwardState deltaX S e k).fEnergyPerNucleon ∨
      ((forwardState deltaX S e k).fEnergyPerNucleon = 0 ∧
        (forwardState deltaX S e k).fDEDX = 0) := by
  cases k with
  | zero => left; rfl
  | succ k =>
    rw [forwardState_succ]
    rcases le_or_lt ((forwardState deltaX S e k).fEnergyPerNucleon -
      (forwardState deltaX S e k).fDEDX * deltaX) 0 with h | h
    · rw [ParticleByE.Step_of_le deltaX S _ h]; right; exact ⟨rfl, rfl⟩
    · rw [ParticleByE.Step_of_pos deltaX S _ h]; left; rfl

theorem forwardState_dedx_of_running (deltaX : ℚ) (S : ℚ → ℚ) (e : ℚ) (k : Nat)
    (h : (forwardState deltaX S e k).Stopped = false) :
    (forwardState deltaX S e k).fDEDX = S (forwardState deltaX S e k).fEnergyPerNucleon := by
  rcases forwardState_inv deltaX S e k with h1 | ⟨h1, _⟩
  · exact h1
  · rw [ParticleByE.Stopped_false_iff, h1] at h
    exact absurd h (lt_irrefl 0)

theorem forwardState_fRange (deltaX : ℚ) (S : ℚ → ℚ) (e : ℚ) (k : Nat) :
    (forwardState deltaX S e k).fRange = k * deltaX := by
  unfold forwardState
  rw [ParticleByE.iterate_fRange]
  simp [ParticleByE.Initialize]

/-- A stopped forward state reached from a non-negative energy has energy `0`. -/
theorem forwardState_stopped_energy (deltaX : ℚ) (S : ℚ → ℚ) (e : ℚ) (he : 0 ≤ e) (k : Nat)
    (h : (forwardState deltaX S e k).Stopped = true) :
    (forwardState deltaX S e k).fEnergyPerNucleon = 0 := by
  rw [ParticleByE.Stopped_iff] at h
  apply le_antisymm h
  cases k with
  | zero => exact he
  | succ k => rw [forwardState_succ]; exact ParticleByE.Step_energy_nonneg _ _ _

/-! ## Curves used in the examples -/

theorem linearEval_one (x : ℚ) : linearEval 0 1 10 1 x = 1 := by
  unfold linearEval; ring

theorem linearEval_tenth (x : ℚ) : linearEval 0 0 10 1 x = x / 10 := by
  unfold linearEval; ring

theorem linearEval_steep (x : ℚ) : linearEval 0 1 10 1001 x = 1 + 100 * x := by
  unfold linearEval; ring

/-! ## Geometric decay -/

/-- On the curve `S e = e * s` with `0 < 1 - s * deltaX` the forward energy is
multiplied by `1 - s * deltaX` at every step and never reaches `0`. -/
theorem forwardState_geometric (deltaX s : ℚ) (S : ℚ → ℚ) (hS : ∀ e, S e = e * s)
    (hq : 0 < 1 - s * deltaX) (n : Nat) :
    forwardState deltaX S 1 n =
      ⟨n * deltaX, (1 - s * deltaX) ^ n, (1 - s * deltaX) ^ n * s⟩ := by
  induction n with
  | zero => simp [forwardState, ParticleByE.Initialize, hS]
  | succ n ih =>
    rw [forwardState_succ, ih]
    have hpos : 0 < (1 - s * deltaX) ^ n - (1 - s * deltaX) ^ n * s * deltaX := by
      have : (1 - s * deltaX) ^ n - (1 - s * deltaX) ^ n * s * deltaX =
          (1 - s * deltaX) ^ (n + 1) := by ring
      rw [this]; exact pow_pos hq _
    rw [ParticleByE.Step_of_pos deltaX S _ hpos]
    show (⟨n * deltaX + deltaX, (1 - s * deltaX) ^ n - (1 - s * deltaX) ^ n * s * deltaX,
      S ((1 - s * deltaX) ^ n - (1 - s * deltaX) ^ n * s * deltaX)⟩ : ParticleByE) = _
    rw [hS]
    push_cast
    congr 1 <;> ring

theorem forwardState_geometric_running (deltaX s : ℚ) (S : ℚ → ℚ) (hS : ∀ e, S e = e * s)
    (hq : 0 < 1 - s * deltaX) (n : Nat) :
    (forwardState deltaX S 1 n).Stopped = false := by
  rw [forwardState_geometric deltaX s S hS hq n, ParticleByE.Stopped_false_iff]
  exact pow_pos hq n

/-- The reverse energy stays `0` on a curve that vanishes at `0`. -/
theorem reverse_energy_zero (deltaX : ℚ) (S : ℚ → ℚ) (hS : S 0 = 0) (k : Nat) :
    (fun e => e + S e * deltaX)^[k] 0 = 0 := by
  induction k with
  | zero => rfl
  | succ k ih =>
    rw [Function.iterate_succ_apply', ih]
    simp [hS]

/-! ## Forward/reverse consistency -/

/-- C3 (as stated, refuted): on the curve through `(0, 0)` and `(10, 1)`, with
step `0.1` and initial energy `1.0`, no step count leaves the forward particle
stopped, so the scenario of the claim has no such `n`. -/
theorem concrete_scenario_fails :
    ¬ ∃ n, 1 ≤ n ∧ (forwardState (1 / 10) (linearEval 0 0 10 1) 1 n).Stopped = true ∧
      0 < (forwardState (1 / 10) (linearEval 0 0 10 1) 1 n).Range ∧
      (forwardState (1 / 10) (linearEval 0 0 10 1) 1 n).EnergyPerNucleon = 0 ∧
      ∃ fuel rev,
        whileNot ReverseParticleByE.Returned
            (ReverseParticleByE.ReverseStep (1 / 10) (linearEval 0 0 10 1)) fuel
            (ReverseParticleByE.Initialize
              (forwardState (1 / 10) (linearEval 0 0 10 1) 1 n).Range) = some rev ∧
          |rev.EnergyPerNucleon - 1| ≤ 1 / 1000000 := by
  rintro ⟨n, _, hn, _⟩
  have hrun := forwardState_geometric_running (1 / 10) (1 / 10) (linearEval 0 0 10 1)
    (fun e => by rw [linearEval_tenth]; ring) (by norm_num) n
  rw [hrun] at hn
  exact absurd hn (by simp)

/-! ## The recorded samples -/

theorem sample_eq (p : ParticleByE) : sample p = (p.fRange / 1000, p.fDEDX * 1000) := by
  simp only [sample, ParticleByE.Range, ParticleByE.DEDX, mm, um, MeV]
  norm_num
  ring

theorem Step_stopped_dedx (deltaX : ℚ) (S : ℚ → ℚ) (p : ParticleByE)
    (h : (p.Step deltaX S).Stopped = true) : (p.Step deltaX S).fDEDX = 0 := by
  rcases le_or_lt (p.fEnergyPerNucleon - p.fDEDX * deltaX) 0 with hle | hpos
  · rw [ParticleByE.Step_of_le deltaX S p hle]
  · rw [ParticleByE.Step_of_pos deltaX S p hpos, ParticleByE.Stopped_iff] at h
    exact absurd hpos (not_lt.mpr h)

theorem getLast?_map_range_succ {α : Type} (f : Nat → α) (n : Nat) :
    ((List.range (n + 1)).map f).getLast? = some (f n) := by
  rw [List.range_succ, List.map_append]
  simp

theorem dEdxByE_of_either (fuel : Nat) (S : ℚ → ℚ) (targetRange deltaX : ℚ) (out : ByERun)
    (h : dEdxByE fuel S targetRange deltaX = some out ∨
      (dEdxSliceX fuel S targetRange deltaX).map SliceXRun.toByE = some out) :
    dEdxByE fuel S targetRange deltaX = some out := by
  rcases h with h | h
  · exact h
  · rw [← dEdxSliceX_toByE]; exact h

/-- A run of `dEdxByE` whose loops both run zero times: constant curve `1`,
target range `0`, step `1`. -/
theorem dEdxByE_example_zero :
    dEdxByE 0 (linearEval 0 1 10 1) 0 1 = some ⟨0, ⟨0, 0, 1⟩, [(0, 1000)]⟩ := by
  norm_num [dEdxByE, dEdxByE.reverse, whileNot, ReverseParticleByE.Returned,
    ReverseParticleByE.Initialize, ReverseParticleByE.EnergyPerNucleon,
    ParticleByE.Initialize, ParticleByE.Stopped, ParticleByE.Range, ParticleByE.DEDX,
    AddPoint, linearEval, mm, um, MeV]

/-- C4 (as stated, refuted): on the constant curve `1` (through `(0, 1)` and
`(10, 1)`) with target range `0` and step `1`, both builders return the single
sample `(0, 1000)`: the forward loop body runs zero times and the last recorded
stopping power is `1000`, not `0`. -/
theorem final_sample_nonzero :
    (∃ out, dEdxByE 0 (linearEval 0 1 10 1) 0 1 = some out ∧
      out.result = [(0, 1000)] ∧ out.result.getLast?.map Prod.snd = some 1000) ∧
    (∃ out, dEdxSliceX 0 (linearEval 0 1 10 1) 0 1 = some out ∧
      out.braggCurve = [(0, 1000)] ∧ out.braggCurve.getLast?.map Prod.snd = some 1000) := by
  constructor
  · exact ⟨⟨0, ⟨0, 0, 1⟩, [(0, 1000)]⟩, dEdxByE_example_zero, rfl, rfl⟩
  · refine ⟨⟨0, ⟨0, 0, 1⟩, [(0, 1000)]⟩, ?_, rfl, rfl⟩
    norm_num [dEdxSliceX, dEdxSliceX.reverse, whileNot, ReverseParticleSliceX.Returned,
      ReverseParticleSliceX.Initialize, ReverseParticleSliceX.EnergyPerNucleon,
      ParticleSliceX.Initialize, ParticleSliceX.Stopped, ParticleSliceX.Range,
      ParticleSliceX.DEDX, AddPoint, linearEval, mm, um, MeV]

/-- C4 (amended): for every curve, target range and step on which a builder
(`dEdxByE` or `dEdxSliceX`) returns, if the derived energy is positive (the
forward loop body runs at least once) the stopping power of the last recorded
sample is exactly `0`; if the derived energy is `≤ 0` (the body runs zero times)
the only sample is `(0, 1000 * S E)`, the one recorded right after `Initialize`. -/
theorem final_sample (fuel : Nat) (S : ℚ → ℚ) (targetRange deltaX : ℚ) (out : ByERun)
    (h : dEdxByE fuel S targetRange deltaX = some out ∨
      (dEdxSliceX fuel S targetRange deltaX).map SliceXRun.toByE = some out) :
    (0 < out.energyPerNucleon → out.result.getLast?.map Prod.snd = some 0) ∧
      (out.energyPerNucleon ≤ 0 →
        out.result = [(0, S out.energyPerNucleon * 1000)]) := by
  obtain ⟨m, n, _, _, _, _, _, _, hstop, hmin, hres⟩ :=
    dEdxByE_some fuel S targetRange deltaX out (dEdxByE_of_either _ _ _ _ _ h)
  constructor
  · intro hpos
    rw [hres, getLast?_map_range_succ]
    cases n with
    | zero =>
      rw [ParticleByE.Stopped_iff] at hstop
      exact absurd hpos (not_lt.mpr hstop)
    | succ n =>
      rw [forwardState_succ] at hstop ⊢
      simp [sample_eq, Step_stopped_dedx deltaX S _ hstop]
  · intro hle
    cases n with
    | zero =>
      rw [hres]
      simp [List.range_succ, sample_eq, forwardState, ParticleByE.Initialize]
    | succ n =>
      have h0 := hmin 0 (Nat.succ_pos n)
      rw [ParticleByE.Stopped_false_iff] at h0
      exact absurd h0 (not_lt.mpr hle)

/-- A run of `dEdxByE`: constant curve `1`, target range `0.003` mm, step `1`. -/
theorem dEdxByE_example :
    dEdxByE 3 (linearEval 0 1 10 1) (3 / 1000) 1 =
      some ⟨3, ⟨3, 0, 0⟩, [(0, 1000), (1 / 1000, 1000), (2 / 1000, 1000), (3 / 1000, 0)]⟩ := by
  norm_num [dEdxByE, dEdxByE.reverse, dEdxByE.body, whileNot, ReverseParticleByE.Returned,
    ReverseParticleByE.Initialize, ReverseParticleByE.EnergyPerNucleon,
    ReverseParticleByE.ReverseStep_eq,
    ParticleByE.Initialize, ParticleByE.Stopped, ParticleByE.Step, ParticleByE.Range,
    ParticleByE.DEDX, AddPoint, linearEval, mm, um, MeV]

/-- C4 (amended), at two concrete inputs on the constant curve `1` with step
`1`: target range `0.003` mm, where the derived energy is `3` and the body runs
three times, and target range `0`, where the derived energy is `0`. -/
theorem final_sample_witness :
    ([(0, 1000), (1 / 1000, 1000), (2 / 1000, 1000), (3 / 1000, 0)] :
        TGraph).getLast?.map Prod.snd = some 0 ∧
      ([(0, 1000)] : TGraph) = [(0, linearEval 0 1 10 1 0 * 1000)] :=
  ⟨(final_sample 3 (linearEval 0 1 10 1) (3 / 1000) 1
      ⟨3, ⟨3, 0, 0⟩, [(0, 1000), (1 / 1000, 1000), (2 / 1000, 1000), (3 / 1000, 0)]⟩
      (Or.inl dEdxByE_example)).1 (by norm_num),
    (final_sample 0 (linearEval 0 1 10 1) 0 1 ⟨0, ⟨0, 0, 1⟩, [(0, 1000)]⟩
      (Or.inl dEdxByE_example_zero)).2 (le_refl 0)⟩

/-! ## Ordering of the recorded ranges -/

/-- C5: for every curve, target range and step `deltaX > 0` on which a builder
(`dEdxByE` or `dEdxSliceX`) returns, the recorded sample sequence is non-empty,
its first range value is `0`, its range values are strictly increasing, and its
last range value is the forward particle's final `Range()` divided by `1000`. -/
theorem bragg_curve_ordering (fuel : Nat) (S : ℚ → ℚ) (targetRange deltaX : ℚ)
    (out : ByERun) (hdx : 0 < deltaX)
    (h : dEdxByE fuel S targetRange deltaX = some out ∨
      (dEdxSliceX fuel S targetRange deltaX).map SliceXRun.toByE = some out) :
    out.result ≠ [] ∧
      (out.result.map Prod.fst).head? = some 0 ∧
      List.Pairwise (fun a b => a < b) (out.result.map Prod.fst) ∧
      (out.result.map Prod.fst).getLast? = some (out.particleByE.Range / 1000) := by
  obtain ⟨m, n, _, _, _, _, _, hp, _, _, hres⟩ :=
    dEdxByE_some fuel S targetRange deltaX out (dEdxByE_of_either _ _ _ _ _ h)
  have hfst : out.result.map Prod.fst =
      (List.range (n + 1)).map (fun k : Nat => (k : ℚ) * deltaX / 1000) := by
    rw [hres, List.map_map]
    apply List.map_congr_left
    intro k _
    simp [sample_eq, forwardState_fRange]
  refine ⟨?_, ?_, ?_, ?_⟩
  · rw [hres, List.range_succ_eq_map]
    simp
  · rw [hfst, List.range_succ_eq_map]
    simp
  · rw [hfst, List.pairwise_map]
    refine List.Pairwise.imp ?_ (List.pairwise_lt_range (n + 1))
    intro a b hab
    have : (a : ℚ) < b := by exact_mod_cast hab
    have h1000 : (0 : ℚ) < 1000 := by norm_num
    exact div_lt_div_of_pos_right (mul_lt_mul_of_pos_right this hdx) h1000
  · rw [hfst, getLast?_map_range_succ, hp]
    simp [ParticleByE.Range, forwardState_fRange]

/-- C5, at a concrete input: constant curve `1`, target range `0.003` mm, step `1`. -/
theorem bragg_curve_ordering_witness :
    ([(0, 1000), (1 / 1000, 1000), (2 / 1000, 1000), (3 / 1000, 0)] : TGraph) ≠ [] ∧
      (([(0, 1000), (1 / 1000, 1000), (2 / 1000, 1000), (3 / 1000, 0)] : TGraph).map
        Prod.fst).head? = some 0 ∧
      List.Pairwise (fun a b => a < b)
        (([(0, 1000), (1 / 1000, 1000), (2 / 1000, 1000), (3 / 1000, 0)] : TGraph).map
          Prod.fst) ∧
      (([(0, 1000), (1 / 1000, 1000), (2 / 1000, 1000), (3 / 1000, 0)] : TGraph).map
        Prod.fst).getLast? = some ((⟨3, 0, 0⟩ : ParticleByE).Range / 1000) :=
  bragg_curve_ordering 3 (linearEval 0 1 10 1) (3 / 1000) 1
    ⟨3, ⟨3, 0, 0⟩, [(0, 1000), (1 / 1000, 1000), (2 / 1000, 1000), (3 / 1000, 0)]⟩
    (by norm_num) (Or.inl dEdxByE_example)

/-! ## Inputs outside the documented domain -/

theorem reverseState_range_of_nonpos_step (deltaX : ℚ) (S : ℚ → ℚ) (r : ℚ) (hdx : deltaX ≤ 0)
    (hr : 0 < r) (k : Nat) : r ≤ (reverseState deltaX S r k).fRange := by
  induction k with
  | zero => exact le_refl r
  | succ k ih =>
    rw [reverseState_succ, ReverseParticleByE.ReverseStep_eq]
    have : ¬ ((reverseState deltaX S r k).fRange - deltaX ≤ 0) := by
      rw [not_le]; linarith
    simp only [this, if_false]
    linarith

theorem dEdxByE_of_nonpos_range (fuel : Nat) (S : ℚ → ℚ) (targetRange deltaX : ℚ)
    (hR : targetRange ≤ 0) :
    dEdxByE fuel S targetRange deltaX =
      some ⟨0, ParticleByE.Initialize S 0, [(0, S 0 * 1000)]⟩ := by
  have hmm : targetRange * mm ≤ 0 := by
    have : (0 : ℚ) ≤ mm := by norm_num [mm, um]
    exact mul_nonpos_of_nonpos_of_nonneg hR this
  have h := dEdxByE_of_steps fuel S targetRange deltaX 0 0 (Nat.zero_le _) (Nat.zero_le _)
    (by simpa [reverseState, ReverseParticleByE.Initialize, ReverseParticleByE.Returned]
      using hmm)
    (fun k hk => absurd hk (Nat.not_lt_zero k))
    (by simp [forwardState, reverseState, ReverseParticleByE.Initialize,
      ParticleByE.Initialize, ParticleByE.Stopped])
    (fun k hk => absurd hk (Nat.not_lt_zero k))
  rw [h]
  simp [forwardState, reverseState, ReverseParticleByE.Initialize, sample_eq,
    ParticleByE.Initialize, List.range_succ]

/-- C7 (as stated, refuted): on the constant curve `1`, `ComputeRangeByE` with
the negative energy `-1` returns the range `0`; `dEdxByE` with the negative
target range `-1` returns the curve `[(0, 1000)]`; `dEdxSliceX` with target range
`0` and the negative step `-1` returns the same curve; and both `Initialize`
functions store a negative argument as it is. -/
theorem invalid_inputs_accepted :
    ComputeRangeByE 0 (-1) 1 (linearEval 0 1 10 1) = some 0 ∧
      (dEdxByE 0 (linearEval 0 1 10 1) (-1) 1).map ByERun.result = some [(0, 1000)] ∧
      (dEdxSliceX 0 (linearEval 0 1 10 1) 0 (-1)).map SliceXRun.braggCurve =
        some [(0, 1000)] ∧
      ParticleByE.Initialize (linearEval 0 1 10 1) (-1) = ⟨0, -1, 1⟩ ∧
      ReverseParticleByE.Initialize (-1) = ⟨0, 0, -1⟩ := by
  refine ⟨?_, ?_, ?_, ?_, rfl⟩
  · norm_num [ComputeRangeByE, whileNot, ParticleByE.Initialize, ParticleByE.Stopped,
      ParticleByE.Range]
  · rw [dEdxByE_of_nonpos_range 0 _ (-1) 1 (by norm_num)]
    norm_num [linearEval]
  · have h := dEdxSliceX_toByE 0 (linearEval 0 1 10 1) 0 (-1)
    rw [dEdxByE_of_nonpos_range 0 _ 0 (-1) (le_refl 0)] at h
    cases hx : dEdxSliceX 0 (linearEval 0 1 10 1) 0 (-1) with
    | none => rw [hx] at h; exact absurd h (by simp)
    | some out =>
      rw [hx] at h
      simp only [Option.map_some', Option.some.injEq] at h ⊢
      have := congrArg ByERun.result h
      simp only [SliceXRun.toByE] at this
      rw [this]
      norm_num [linearEval]
  · norm_num [ParticleByE.Initialize, linearEval]

/-- C7 (amended): no input is rejected.  For every curve and every step
(positive or not), `ComputeRangeByE` with an energy `≤ 0` returns the range `0`
without stepping, and both builders with a target range `≤ 0` return the derived
energy `0` and the single sample `(0, 1000 * S 0)`; with a step `≤ 0` and a
target range `> 0` the reverse loop is never `Returned` and neither builder
returns, with any amount of fuel; and the `Initialize` functions of the four
classes store any argument, negative or not, as it is. -/
theorem no_input_validation (fuel : Nat) (S : ℚ → ℚ) (E targetRange deltaX : ℚ) :
    (E ≤ 0 → ComputeRangeByE fuel E deltaX S = some 0) ∧
      (targetRange ≤ 0 →
        dEdxByE fuel S targetRange deltaX =
            some ⟨0, ParticleByE.Initialize S 0, [(0, S 0 * 1000)]⟩ ∧
          dEdxSliceX fuel S targetRange deltaX =
            some ⟨0, ParticleSliceX.Initialize S 0, [(0, S 0 * 1000)]⟩) ∧
      (0 < targetRange → deltaX ≤ 0 →
        dEdxByE fuel S targetRange deltaX = none ∧
          dEdxSliceX fuel S targetRange deltaX = none) ∧
      ParticleByE.Initialize S E = ⟨0, E, S E⟩ ∧
      ReverseParticleByE.Initialize targetRange = ⟨0, 0, targetRange⟩ ∧
      ParticleSliceX.Initialize S E = ⟨0, E, S E⟩ ∧
      ReverseParticleSliceX.Initialize targetRange = ⟨0, 0, targetRange⟩ := by
  refine ⟨?_, ?_, ?_, rfl, rfl, rfl, rfl⟩
  · intro hE
    have hs : (ParticleByE.Initialize S E).Stopped = true := by
      simpa [ParticleByE.Initialize, ParticleByE.Stopped] using hE
    unfold ComputeRangeByE
    rw [whileNot_of_iterate ParticleByE.Stopped (ParticleByE.Step deltaX S) 0 fuel
      (ParticleByE.Initialize S E)
      (Nat.zero_le _) (fun k hk => absurd hk (Nat.not_lt_zero k)) hs]
    rfl
  · intro hR
    have hE := dEdxByE_of_nonpos_range fuel S targetRange deltaX hR
    refine ⟨hE, ?_⟩
    have h := dEdxSliceX_toByE fuel S targetRange deltaX
    rw [hE] at h
    cases hx : dEdxSliceX fuel S targetRange deltaX with
    | none => rw [hx] at h; exact absurd h (by simp)
    | some out =>
      rw [hx] at h
      simp only [Option.map_some', Option.some.injEq] at h
      obtain ⟨e, ⟨r, en, d⟩, g⟩ := out
      simp only [SliceXRun.toByE, ParticleSliceX.toByE, ParticleByE.Initialize,
        ByERun.mk.injEq, ParticleByE.mk.injEq] at h
      obtain ⟨h1, ⟨h2, h3, h4⟩, h5⟩ := h
      simp only [ParticleSliceX.Initialize, h1, h2, h3, h4, h5]
  · intro hR hdx
    have hmm : 0 < targetRange * mm := by
      have : (0 : ℚ) < mm := by norm_num [mm, um]
      exact mul_pos hR this
    have hnever : ∀ k, (reverseState deltaX S (targetRange * mm) k).Returned = false := by
      intro k
      rw [ReverseParticleByE.Returned_false_iff]
      exact lt_of_lt_of_le hmm
        (reverseState_range_of_nonpos_step deltaX S _ hdx hmm k)
    have hE : dEdxByE fuel S targetRange deltaX = none := by
      have hrev : dEdxByE.reverse fuel S targetRange deltaX = none :=
        whileNot_never _ _ _ hnever fuel
      unfold dEdxByE
      rw [hrev]
    refine ⟨hE, ?_⟩
    have h := dEdxSliceX_toByE fuel S targetRange deltaX
    rw [hE] at h
    cases hx : dEdxSliceX fuel S targetRange deltaX with
    | none => rfl
    | some out => rw [hx] at h; exact absurd h (by simp)

/-- C7 (amended), at concrete inputs: constant curve `1`; energy `-1` and target
range `-1` with step `1`; target range `1` with step `-1` and fuel `100`; the
`Initialize` functions at `-1`. -/
theorem no_input_validation_witness :
    ComputeRangeByE 0 (-1) 1 (fun _ => 1) = some 0 ∧
      (dEdxByE 0 (fun _ => 1) (-1) 1 =
          some ⟨0, ParticleByE.Initialize (fun _ => 1) 0, [(0, 1 * 1000)]⟩ ∧
        dEdxSliceX 0 (fun _ => 1) (-1) 1 =
          some ⟨0, ParticleSliceX.Initialize (fun _ => 1) 0, [(0, 1 * 1000)]⟩) ∧
      (dEdxByE 100 (fun _ => 1) 1 (-1) = none ∧ dEdxSliceX 100 (fun _ => 1) 1 (-1) = none) ∧
      ParticleByE.Initialize (fun _ => 1) (-1) = ⟨0, -1, 1⟩ ∧
      ReverseParticleByE.Initialize (-1) = ⟨0, 0, -1⟩ ∧
      ParticleSliceX.Initialize (fun _ => 1) (-1) = ⟨0, -1, 1⟩ ∧
      ReverseParticleSliceX.Initialize (-1) = ⟨0, 0, -1⟩ :=
  ⟨(no_input_validation 0 (fun _ => 1) (-1) (-1) 1).1 (by norm_num),
    (no_input_validation 0 (fun _ => 1) (-1) (-1) 1).2.1 (by norm_num),
    (no_input_validation 100 (fun _ => 1) 0 1 (-1)).2.2.1 (by norm_num) (by norm_num),
    (no_input_validation 0 (fun _ => 1) (-1) (-1) 1).2.2.2⟩

/-! ## Postconditions of the two step functions -/

/-- C8: for every forward state `(r, e, d)`, every step `deltaX` and every curve
`S`, `Step` yields the range `r + deltaX` and, with `e' = e - d * deltaX`, the
energy `0` and stopping power `0` if `e' ≤ 0`, and the energy `e'` and stopping
power `S e'` otherwise; so the energy after a `Step` is never negative.  The
same holds for `ParticleSliceX::Step`. -/
theorem step_postcondition (deltaX : ℚ) (S : ℚ → ℚ) (r e d : ℚ) :
    (ParticleByE.Step deltaX S ⟨r, e, d⟩ =
        if e - d * deltaX ≤ 0 then ⟨r + deltaX, 0, 0⟩
        else ⟨r + deltaX, e - d * deltaX, S (e - d * deltaX)⟩) ∧
      0 ≤ (ParticleByE.Step deltaX S ⟨r, e, d⟩).EnergyPerNucleon ∧
      (ParticleSliceX.Step deltaX S ⟨r, e, d⟩ =
        if e - d * deltaX ≤ 0 then ⟨r + deltaX, 0, 0⟩
        else ⟨r + deltaX, e - d * deltaX, S (e - d * deltaX)⟩) ∧
      0 ≤ (ParticleSliceX.Step deltaX S ⟨r, e, d⟩).EnergyPerNucleon := by
  have hx : (ParticleSliceX.Step deltaX S ⟨r, e, d⟩).EnergyPerNucleon =
      (ParticleByE.Step deltaX S ⟨r, e, d⟩).EnergyPerNucleon :=
    congrArg ParticleByE.EnergyPerNucleon (ParticleSliceX.toByE_Step deltaX S ⟨r, e, d⟩)
  refine ⟨?_, ParticleByE.Step_energy_nonneg deltaX S _, ?_,
    hx ▸ ParticleByE.Step_energy_nonneg deltaX S _⟩
  · by_cases h : e - d * deltaX ≤ 0 <;> simp [ParticleByE.Step, ParticleByE.Stopped, h]
  · by_cases h : e - d * deltaX ≤ 0 <;> simp [ParticleSliceX.Step, ParticleSliceX.Stopped, h]

/-- C9: for every reverse state (stopping power `d`, energy `e`, remaining range
`r`), every step `deltaX` and every curve `S`, `ReverseStep` sets the stopping
power to `S e`, at the energy before the update, the energy to
`e + S e * deltaX`, and the remaining range to `r - deltaX`, replaced by `0`
when `r - deltaX ≤ 0`; that is `max (r - deltaX) 0`, never negative.  The same
holds for `ReverseParticleSliceX::ReverseStep`. -/
theorem reverse_step_postcondition (deltaX : ℚ) (S : ℚ → ℚ) (d e r : ℚ) :
    (ReverseParticleByE.ReverseStep deltaX S ⟨d, e, r⟩ =
        ⟨S e, e + S e * deltaX, if r - deltaX ≤ 0 then 0 else r - deltaX⟩) ∧
      (ReverseParticleByE.ReverseStep deltaX S ⟨d, e, r⟩).Range = max (r - deltaX) 0 ∧
      0 ≤ (ReverseParticleByE.ReverseStep deltaX S ⟨d, e, r⟩).Range ∧
      (ReverseParticleSliceX.ReverseStep deltaX S ⟨d, e, r⟩ =
        ⟨S e, e + S e * deltaX, if r - deltaX ≤ 0 then 0 else r - deltaX⟩) ∧
      (ReverseParticleSliceX.ReverseStep deltaX S ⟨d, e, r⟩).Range = max (r - deltaX) 0 ∧
      0 ≤ (ReverseParticleSliceX.ReverseStep deltaX S ⟨d, e, r⟩).Range := by
  have hE := ReverseParticleByE.ReverseStep_eq deltaX S ⟨d, e, r⟩
  have hX : ReverseParticleSliceX.ReverseStep deltaX S ⟨d, e, r⟩ =
      ⟨S e, e + S e * deltaX, if r - deltaX ≤ 0 then 0 else r - deltaX⟩ := by
    by_cases h : r - deltaX ≤ 0 <;>
      simp [ReverseParticleSliceX.ReverseStep, ReverseParticleSliceX.Returned, h]
  have hmax : (if r - deltaX ≤ 0 then (0 : ℚ) else r - deltaX) = max (r - deltaX) 0 := by
    by_cases h : r - deltaX ≤ 0
    · simp [h]
    · simp [h, le_of_lt (not_le.mp h)]
  refine ⟨hE, ?_, ?_, hX, ?_, ?_⟩
  · rw [hE]; exact hmax
  · rw [hE]; show 0 ≤ (if r - deltaX ≤ 0 then (0 : ℚ) else r - deltaX)
    rw [hmax]; exact le_max_right _ _
  · rw [hX]; exact hmax
  · rw [hX]; show 0 ≤ (if r - deltaX ≤ 0 then (0 : ℚ) else r - deltaX)
    rw [hmax]; exact le_max_right _ _

/-! ## Construction of the Bragg curve -/

theorem least_unique (P : Nat → Bool) (a b : Nat) (ha : P a = true) (hb : P b = true)
    (hla : ∀ k, k < a → P k = false) (hlb : ∀ k, k < b → P k = false) : a = b := by
  rcases Nat.lt_trichotomy a b with h | h | h
  · have := hlb a h; rw [ha] at this; exact absurd this (by simp)
  · exact h
  · have := hla b h; rw [hb] at this; exact absurd this (by simp)

theorem map_sample_eq (deltaX : ℚ) (S : ℚ → ℚ) (e : ℚ) (n : Nat) :
    (List.range (n + 1)).map (fun k => sample (forwardState deltaX S e k)) =
      (List.range (n + 1)).map (fun k =>
        ((forwardState deltaX S e k).Range / 1000, (forwardState deltaX S e k).DEDX * 1000)) := by
  apply List.map_congr_left
  intro k _
  rw [sample_eq]
  rfl

/-- C10: for every target range (mm), step `deltaX` and curve `S`, with `E` the
energy returned by the reverse loop started from `targetRange * 1000` and `n` the
least step count at which the forward state from `Initialize(E)` has energy
`≤ 0`, both builders return and record exactly the `n + 1` samples
`(r_k / 1000, d_k * 1000)`, `k = 0..n`, in that order, with `r_k = k * deltaX`.
(For `deltaX > 0` the reverse loop does return, see `reverse_returns`.) -/
theorem bragg_curve_construction (S : ℚ → ℚ) (targetRange deltaX : ℚ) (fuel0 : Nat)
    (rev : ReverseParticleByE) (hrev : dEdxByE.reverse fuel0 S targetRange deltaX = some rev)
    (n : Nat) (hstop : (forwardState deltaX S rev.EnergyPerNucleon n).EnergyPerNucleon ≤ 0)
    (hmin : ∀ k, k < n →
      ¬ (forwardState deltaX S rev.EnergyPerNucleon k).EnergyPerNucleon ≤ 0) :
    (∃ fuel out, dEdxByE fuel S targetRange deltaX = some out ∧
        out.energyPerNucleon = rev.EnergyPerNucleon ∧
        out.result = (List.range (n + 1)).map (fun k =>
          ((forwardState deltaX S rev.EnergyPerNucleon k).Range / 1000,
            (forwardState deltaX S rev.EnergyPerNucleon k).DEDX * 1000))) ∧
      (∃ fuel out, dEdxSliceX fuel S targetRange deltaX = some out ∧
        out.energyPerNucleon = rev.EnergyPerNucleon ∧
        out.braggCurve = (List.range (n + 1)).map (fun k =>
          ((forwardState deltaX S rev.EnergyPerNucleon k).Range / 1000,
            (forwardState deltaX S rev.EnergyPerNucleon k).DEDX * 1000))) ∧
      (∀ fuel out, dEdxByE fuel S targetRange deltaX = some out →
        out.result = (List.range (n + 1)).map (fun k =>
          ((forwardState deltaX S rev.EnergyPerNucleon k).Range / 1000,
            (forwardState deltaX S rev.EnergyPerNucleon k).DEDX * 1000))) ∧
      (∀ fuel out, dEdxSliceX fuel S targetRange deltaX = some out →
        out.braggCurve = (List.range (n + 1)).map (fun k =>
          ((forwardState deltaX S rev.EnergyPerNucleon k).Range / 1000,
            (forwardState deltaX S rev.EnergyPerNucleon k).DEDX * 1000))) ∧
      ((List.range (n + 1)).map (fun k =>
          ((forwardState deltaX S rev.EnergyPerNucleon k).Range / 1000,
            (forwardState deltaX S rev.EnergyPerNucleon k).DEDX * 1000))).length = n + 1 ∧
      ∀ k, (forwardState deltaX S rev.EnergyPerNucleon k).Range = k * deltaX := by
  obtain ⟨m, hm, hrevm, hret, hnret⟩ := whileNot_some _ _ fuel0 _ rev hrev
  have hrs : rev = reverseState deltaX S (targetRange * mm) m := hrevm
  rw [hrs] at hret hstop hmin ⊢
  have hnret' : ∀ k, k < m →
      (reverseState deltaX S (targetRange * mm) k).Returned = false := hnret
  have hstop' : (forwardState deltaX S
      (reverseState deltaX S (targetRange * mm) m).fEnergyPerNucleon n).Stopped = true :=
    (ParticleByE.Stopped_iff _).mpr hstop
  have hmin' : ∀ k, k < n → (forwardState deltaX S
      (reverseState deltaX S (targetRange * mm) m).fEnergyPerNucleon k).Stopped = false := by
    intro k hk
    rw [ParticleByE.Stopped_false_iff]
    exact not_le.mp (hmin k hk)
  have hrun := dEdxByE_of_steps (max m n) S targetRange deltaX
    m n (le_max_left _ _) (le_max_right _ _) hret hnret' hstop' hmin'
  rw [map_sample_eq] at hrun
  have huniq : ∀ fuel out, dEdxByE fuel S targetRange deltaX = some out →
      out.result = (List.range (n + 1)).map (fun k =>
        ((forwardState deltaX S
            (reverseState deltaX S (targetRange * mm) m).EnergyPerNucleon k).Range / 1000,
          (forwardState deltaX S
            (reverseState deltaX S (targetRange * mm) m).EnergyPerNucleon k).DEDX * 1000)) := by
    intro fuel out hout
    obtain ⟨m', n', _, _, hret', hnret2, hE', _, hstop2, hmin2, hres⟩ :=
      dEdxByE_some fuel S targetRange deltaX out hout
    have hmm' : m' = m :=
      least_unique (fun k => (reverseState deltaX S (targetRange * mm) k).Returned)
        _ _ hret' hret hnret2 hnret'
    rw [hmm'] at hE'
    rw [hE'] at hstop2 hmin2 hres
    have hn : n' = n :=
      least_unique (fun k => (forwardState deltaX S
        (reverseState deltaX S (targetRange * mm) m).fEnergyPerNucleon k).Stopped)
        _ _ hstop2 hstop' hmin2 hmin'
    rw [hn, map_sample_eq] at hres
    exact hres
  refine ⟨⟨_, _, hrun, rfl, rfl⟩, ?_, huniq, ?_, by simp, ?_⟩
  · have hx := dEdxSliceX_toByE (max m n) S targetRange deltaX
    rw [hrun] at hx
    obtain ⟨outX, houtX, hto⟩ := Option.map_eq_some'.mp hx
    refine ⟨_, outX, houtX, ?_, ?_⟩
    · exact congrArg ByERun.energyPerNucleon hto
    · exact congrArg ByERun.result hto
  · intro fuel out hout
    have hx := dEdxSliceX_toByE fuel S targetRange deltaX
    rw [hout] at hx
    exact huniq fuel out.toByE hx.symm
  · intro k
    exact forwardState_fRange deltaX S _ k

/-- C10, at a concrete input: constant curve `1`, target range `0.003` mm,
step `1`, where the reverse loop returns the energy `3` and `n = 3`. -/
theorem bragg_curve_construction_witness :
    ∃ fuel out, dEdxByE fuel (fun _ => 1) (3 / 1000) 1 = some out ∧
      out.energyPerNucleon = (⟨1, 3, 0⟩ : ReverseParticleByE).EnergyPerNucleon ∧
      out.result = (List.range (3 + 1)).map (fun k =>
        ((forwardState 1 (fun _ => 1)
            (⟨1, 3, 0⟩ : ReverseParticleByE).EnergyPerNucleon k).Range / 1000,
          (forwardState 1 (fun _ => 1)
            (⟨1, 3, 0⟩ : ReverseParticleByE).EnergyPerNucleon k).DEDX * 1000)) :=
  (bragg_curve_construction (fun _ => 1) (3 / 1000) 1 3 ⟨1, 3, 0⟩
    (by
      norm_num [dEdxByE.reverse, whileNot, ReverseParticleByE.Returned,
        ReverseParticleByE.Initialize, ReverseParticleByE.ReverseStep_eq, mm, um])
    3
    (by
      norm_num [forwardState, Function.iterate_succ, ParticleByE.Initialize, ParticleByE.Step,
        ParticleByE.Stopped, ParticleByE.EnergyPerNucleon,
        ReverseParticleByE.EnergyPerNucleon])
    (by
      intro k hk
      interval_cases k <;>
        norm_num [forwardState, Function.iterate_succ, ParticleByE.Initialize,
          ParticleByE.Step, ParticleByE.Stopped, ParticleByE.EnergyPerNucleon,
          ReverseParticleByE.EnergyPerNucleon])).1

/-! ## Boundary cases of the two exit tests -/

/-- C11: right after `Initialize(0)` the forward integrator is `Stopped` and the
reverse integrator is `Returned`, for every curve; more generally `Stopped()`
holds right after `Initialize(e)` exactly when `e ≤ 0`, and `Returned()` right
after `Initialize(r)` exactly when `r ≤ 0`.  The same holds in `dEdxSliceX.cxx`. -/
theorem initialize_boundary (S : ℚ → ℚ) :
    (ParticleByE.Initialize S 0).Stopped = true ∧
      (ReverseParticleByE.Initialize 0).Returned = true ∧
      (∀ e, (ParticleByE.Initialize S e).Stopped = true ↔ e ≤ 0) ∧
      (∀ r, (ReverseParticleByE.Initialize r).Returned = true ↔ r ≤ 0) ∧
      (ParticleSliceX.Initialize S 0).Stopped = true ∧
      (ReverseParticleSliceX.Initialize 0).Returned = true ∧
      (∀ e, (ParticleSliceX.Initialize S e).Stopped = true ↔ e ≤ 0) ∧
      (∀ r, (ReverseParticleSliceX.Initialize r).Returned = true ↔ r ≤ 0) := by
  refine ⟨?_, ?_, ?_, ?_, ?_, ?_, ?_, ?_⟩
  · simp [ParticleByE.Initialize, ParticleByE.Stopped]
  · simp [ReverseParticleByE.Initialize, ReverseParticleByE.Returned]
  · intro e; simp [ParticleByE.Initialize, ParticleByE.Stopped]
  · intro r; simp [ReverseParticleByE.Initialize, ReverseParticleByE.Returned]
  · simp [ParticleSliceX.Initialize, ParticleSliceX.Stopped]
  · simp [ReverseParticleSliceX.Initialize, ReverseParticleSliceX.Returned]
  · intro e; simp [ParticleSliceX.Initialize, ParticleSliceX.Stopped]
  · intro r; simp [ReverseParticleSliceX.Initialize, ReverseParticleSliceX.Returned]

/-! ## Loops that run out of fuel -/

theorem dEdxByE_of_zero_energy (fuel : Nat) (S : ℚ → ℚ) (targetRange deltaX : ℚ) (m : Nat)
    (hS : S 0 = 0) (hm : m ≤ fuel)
    (hret : (reverseState deltaX S (targetRange * mm) m).Returned = true)
    (hnret : ∀ k, k < m → (reverseState deltaX S (targetRange * mm) k).Returned = false) :
    dEdxByE fuel S targetRange deltaX = some ⟨0, ⟨0, 0, 0⟩, [(0, 0)]⟩ := by
  have hE : (reverseState deltaX S (targetRange * mm) m).fEnergyPerNucleon = 0 := by
    rw [reverseState_energy]; exact reverse_energy_zero deltaX S hS m
  have h := dEdxByE_of_steps fuel S targetRange deltaX m 0 hm (Nat.zero_le _) hret hnret
    (by rw [hE]; simp [forwardState, ParticleByE.Initialize, ParticleByE.Stopped])
    (fun k hk => absurd hk (Nat.not_lt_zero k))
  rw [h, hE]
  simp [forwardState, ParticleByE.Initialize, hS, sample_eq, List.range_succ]

/-- C15: for every curve with `S 0 = 0`, every `deltaX > 0` and every target
range `R ≥ 0`, the reverse loop returns the energy exactly `0`; the forward loop
from it runs zero times and ends at range `0`, the Bragg curve of both builders is
the single sample `(0, 0)`, and the final range `0` is not within `deltaX` of the
range given to the reverse loop when that range exceeds `deltaX`. -/
theorem degenerate_curve (deltaX R : ℚ) (S : ℚ → ℚ) (hS : S 0 = 0) (hdx : 0 < deltaX)
    (hR : 0 ≤ R) :
    (∃ rev r,
      whileNot ReverseParticleByE.Returned (ReverseParticleByE.ReverseStep deltaX S)
          ⌈R / deltaX⌉₊ (ReverseParticleByE.Initialize R) = some rev ∧
        rev.EnergyPerNucleon = 0 ∧
        ComputeRangeByE 0 rev.EnergyPerNucleon deltaX S = some r ∧ r = 0 ∧
        (deltaX < R → ¬ |r - R| ≤ deltaX)) ∧
      dEdxByE ⌈R * mm / deltaX⌉₊ S R deltaX = some ⟨0, ⟨0, 0, 0⟩, [(0, 0)]⟩ ∧
      dEdxSliceX ⌈R * mm / deltaX⌉₊ S R deltaX = some ⟨0, ⟨0, 0, 0⟩, [(0, 0)]⟩ ∧
      (deltaX < R * mm → ¬ |(⟨0, 0, 0⟩ : ParticleByE).Range - R * mm| ≤ deltaX) := by
  obtain ⟨hret, hnret, _⟩ := reverse_returns deltaX S R hdx
  obtain ⟨hret', hnret', _⟩ := reverse_returns deltaX S (R * mm) hdx
  have hE : (reverseState deltaX S R ⌈R / deltaX⌉₊).fEnergyPerNucleon = 0 := by
    rw [reverseState_energy]; exact reverse_energy_zero deltaX S hS _
  have hmm : 0 ≤ R * mm := mul_nonneg hR (by norm_num [mm, um])
  have hby := dEdxByE_of_zero_energy ⌈R * mm / deltaX⌉₊ S R deltaX _ hS (le_refl _)
    hret' hnret'
  refine ⟨⟨reverseState deltaX S R ⌈R / deltaX⌉₊, 0,
    whileNot_of_iterate _ _ _ _ _ (le_refl _) hnret hret, hE, ?_, rfl, ?_⟩, hby, ?_, ?_⟩
  · show ComputeRangeByE 0 (reverseState deltaX S R ⌈R / deltaX⌉₊).fEnergyPerNucleon
      deltaX S = some 0
    rw [hE]
    simp [ComputeRangeByE, whileNot, ParticleByE.Initialize, ParticleByE.Stopped,
      ParticleByE.Range]
  · intro hlt hle
    rw [abs_le] at hle
    linarith [hle.1]
  · have hx := dEdxSliceX_toByE ⌈R * mm / deltaX⌉₊ S R deltaX
    rw [hby] at hx
    obtain ⟨outX, houtX, hto⟩ := Option.map_eq_some'.mp hx
    rw [houtX]
    obtain ⟨e, ⟨r, en, d⟩, g⟩ := outX
    simp only [SliceXRun.toByE, ParticleSliceX.toByE, ByERun.mk.injEq,
      ParticleByE.mk.injEq] at hto
    obtain ⟨h1, ⟨h2, h3, h4⟩, h5⟩ := hto
    simp only [h1, h2, h3, h4, h5]
  · intro hlt hle
    rw [abs_le] at hle
    simp only [ParticleByE.Range] at hle
    linarith [hle.1]

/-- C15, at a concrete input: the curve through `(0, 0)` and `(10, 1)`, step `1`,
target range `3` mm. -/
theorem degenerate_curve_witness :
    (dEdxByE ⌈(3 : ℚ) * mm / 1⌉₊ (linearEval 0 0 10 1) 3 1 =
        some ⟨0, ⟨0, 0, 0⟩, [(0, 0)]⟩ ∧
      dEdxSliceX ⌈(3 : ℚ) * mm / 1⌉₊ (linearEval 0 0 10 1) 3 1 =
        some ⟨0, ⟨0, 0, 0⟩, [(0, 0)]⟩) ∧
      ¬ |(⟨0, 0, 0⟩ : ParticleByE).Range - 3 * mm| ≤ 1 :=
  ⟨⟨(degenerate_curve 1 3 (linearEval 0 0 10 1) (by norm_num [linearEval]) (by norm_num)
      (by norm_num)).2.1,
    (degenerate_curve 1 3 (linearEval 0 0 10 1) (by norm_num [linearEval]) (by norm_num)
      (by norm_num)).2.2.1⟩,
    (degenerate_curve 1 3 (linearEval 0 0 10 1) (by norm_num [linearEval]) (by norm_num)
      (by norm_num)).2.2.2 (by norm_num [mm, um])⟩

/-! ## Stepping past the stop -/

/-- C18: for every curve and step, a forward state with energy `0` and stopping
power `0` is left by a further `Step` with energy `0`, stopping power `0` and the
range increased by `deltaX`; after `k` further steps the range has grown by
`k * deltaX` and the state is still `Stopped`.  The same holds for
`ParticleSliceX`. -/
theorem terminal_state_absorbing (deltaX : ℚ) (S : ℚ → ℚ) (r : ℚ) :
    ParticleByE.Step deltaX S ⟨r, 0, 0⟩ = ⟨r + deltaX, 0, 0⟩ ∧
      ParticleSliceX.Step deltaX S ⟨r, 0, 0⟩ = ⟨r + deltaX, 0, 0⟩ ∧
      (∀ k : Nat, (ParticleByE.Step deltaX S)^[k] ⟨r, 0, 0⟩ = ⟨r + k * deltaX, 0, 0⟩) ∧
      (∀ k : Nat, (ParticleSliceX.Step deltaX S)^[k] ⟨r, 0, 0⟩ = ⟨r + k * deltaX, 0, 0⟩) ∧
      ∀ k : Nat, ((ParticleByE.Step deltaX S)^[k] ⟨r, 0, 0⟩).Stopped = true := by
  have hE : ∀ x : ℚ, ParticleByE.Step deltaX S ⟨x, 0, 0⟩ = ⟨x + deltaX, 0, 0⟩ := by
    intro x
    simp [ParticleByE.Step, ParticleByE.Stopped]
  have hX : ∀ x : ℚ, ParticleSliceX.Step deltaX S ⟨x, 0, 0⟩ = ⟨x + deltaX, 0, 0⟩ := by
    intro x
    simp [ParticleSliceX.Step, ParticleSliceX.Stopped]
  have hEk : ∀ k : Nat,
      (ParticleByE.Step deltaX S)^[k] ⟨r, 0, 0⟩ = ⟨r + k * deltaX, 0, 0⟩ := by
    intro k
    induction k with
    | zero => simp
    | succ k ih =>
      rw [Function.iterate_succ_apply', ih, hE]
      push_cast
      congr 1
      ring
  have hXk : ∀ k : Nat,
      (ParticleSliceX.Step deltaX S)^[k] ⟨r, 0, 0⟩ = ⟨r + k * deltaX, 0, 0⟩ := by
    intro k
    induction k with
    | zero => simp
    | succ k ih =>
      rw [Function.iterate_succ_apply', ih, hX]
      push_cast
      congr 1
      ring
  refine ⟨hE r, hX r, hEk, hXk, ?_⟩
  intro k
  rw [hEk k]
  simp [ParticleByE.Stopped]

/-! ## The computed range is a multiple of the step -/

theorem stopped_iff_unclamped (deltaX : ℚ) (S : ℚ → ℚ) (e : ℚ) (k : Nat) :
    (forwardState deltaX S e k).Stopped = true ↔ unclampedEnergy deltaX S e k ≤ 0 := by
  cases k with
  | zero => simp [forwardState, unclampedEnergy, ParticleByE.Initialize, ParticleByE.Stopped]
  | succ k =>
    rw [forwardState_succ, ParticleByE.Stopped_iff]
    show _ ↔ (forwardState deltaX S e k).fEnergyPerNucleon -
      (forwardState deltaX S e k).fDEDX * deltaX ≤ 0
    rcases le_or_lt ((forwardState deltaX S e k).fEnergyPerNucleon -
      (forwardState deltaX S e k).fDEDX * deltaX) 0 with h | h
    · rw [ParticleByE.Step_of_le deltaX S _ h]
      exact ⟨fun _ => h, fun _ => le_refl _⟩
    · rw [ParticleByE.Step_of_pos deltaX S _ h]

/-- C16: for every curve, step and initial energy `E` on which `ComputeRangeByE`
returns, the returned range is `n * deltaX`, where `n` is the least number of
steps after which the energy before clamping is `≤ 0` (`n = 0` when `E ≤ 0`);
`Step` adds `deltaX` to the range in both branches, so the clamp never changes
the range. -/
theorem range_quantised (fuel : Nat) (E deltaX : ℚ) (S : ℚ → ℚ) (r : ℚ)
    (h : ComputeRangeByE fuel E deltaX S = some r) :
    ∃ n : Nat, n ≤ fuel ∧ r = n * deltaX ∧
      unclampedEnergy deltaX S E n ≤ 0 ∧
      (∀ k, k < n → 0 < unclampedEnergy deltaX S E k) ∧
      (E ≤ 0 → n = 0) ∧
      ∀ p : ParticleByE, (p.Step deltaX S).Range = p.Range + deltaX := by
  unfold ComputeRangeByE at h
  obtain ⟨p, hp, hr⟩ := Option.map_eq_some'.mp h
  obtain ⟨n, hn, hpn, hstop, hmin⟩ := whileNot_some _ _ fuel _ p hp
  have hpn' : p = forwardState deltaX S E n := hpn
  have hmin' : ∀ k, k < n → (forwardState deltaX S E k).Stopped = false := hmin
  refine ⟨n, hn, ?_, ?_, ?_, ?_, ?_⟩
  · rw [← hr, hpn']
    exact forwardState_fRange deltaX S E n
  · rw [hpn'] at hstop
    exact (stopped_iff_unclamped deltaX S E n).mp hstop
  · intro k hk
    have hk' := hmin' k hk
    by_contra hcon
    have := (stopped_iff_unclamped deltaX S E k).mpr (not_lt.mp hcon)
    rw [hk'] at this
    exact absurd this (by simp)
  · intro hE
    by_contra hne
    have h0 := hmin' 0 (Nat.pos_of_ne_zero hne)
    rw [ParticleByE.Stopped_false_iff] at h0
    exact absurd h0 (not_lt.mpr hE)
  · intro p
    exact ParticleByE.Step_fRange deltaX S p

/-- C16, at a concrete input: constant curve `1`, step `1`, energy `5/2`, where
the loop returns the range `3`. -/
theorem range_quantised_witness :
    ∃ n : Nat, n ≤ 3 ∧ (3 : ℚ) = n * 1 ∧
      unclampedEnergy 1 (fun _ => 1) (5 / 2) n ≤ 0 ∧
      (∀ k, k < n → 0 < unclampedEnergy 1 (fun _ => 1) (5 / 2) k) ∧
      ((5 / 2 : ℚ) ≤ 0 → n = 0) ∧
      ∀ p : ParticleByE, (p.Step 1 (fun _ => 1)).Range = p.Range + 1 :=
  range_quantised 3 (5 / 2) 1 (fun _ => 1) 3
    (by
      norm_num [ComputeRangeByE, whileNot, ParticleByE.Initialize, ParticleByE.Step,
        ParticleByE.Stopped, ParticleByE.Range])

/-! ## The two files compute the same thing -/

theorem forward_fst (fuel : Nat) (deltaX : ℚ) (S : ℚ → ℚ) (p : ParticleByE) (g : TGraph) :
    whileNot ParticleByE.Stopped (ParticleByE.Step deltaX S) fuel p =
      (whileNot (fun s : ParticleByE × TGraph => s.1.Stopped) (dEdxByE.body deltaX S) fuel
        (p, g)).map Prod.fst :=
  whileNot_map (fun s : ParticleByE × TGraph => s.1) (fun s => s.1.Stopped)
    (dEdxByE.body deltaX S) ParticleByE.Stopped (ParticleByE.Step deltaX S)
    (fun _ => rfl) (fun _ => rfl) fuel (p, g)

theorem forward_last (fuel : Nat) (deltaX E : ℚ) (S : ℚ → ℚ) (p : ParticleByE) (g : TGraph)
    (h : dEdxByE.forward fuel S deltaX E = some (p, g)) : g.getLast? = some (sample p) := by
  unfold dEdxByE.forward at h
  obtain ⟨n, _, hpg, _, _⟩ := whileNot_some _ _ fuel _ (p, g) h
  rw [body_iterate] at hpg
  have hp : p = (ParticleByE.Step deltaX S)^[n] (ParticleByE.Initialize S E) :=
    congrArg Prod.fst hpg
  have hg := congrArg Prod.snd hpg
  simp only at hg
  rw [hg, hp]
  have := samples_from_init
    (fun k => sample ((ParticleByE.Step deltaX S)^[k] (ParticleByE.Initialize S E))) n
  simp only [sample, Function.iterate_zero, id_eq] at this ⊢
  rw [this]
  exact getLast?_map_range_succ _ n

theorem dEdxByE_eq_bind (fuel : Nat) (S : ℚ → ℚ) (targetRange deltaX : ℚ) :
    dEdxByE fuel S targetRange deltaX =
      (dEdxByE.reverse fuel S targetRange deltaX).bind (fun rev =>
        (dEdxByE.forward fuel S deltaX rev.EnergyPerNucleon).map
          (fun s => ⟨rev.EnergyPerNucleon, s.1, s.2⟩)) := by
  unfold dEdxByE
  cases dEdxByE.reverse fuel S targetRange deltaX with
  | none => rfl
  | some rev =>
    simp only [Option.some_bind, dEdxByE.forward]
    cases whileNot (fun s => s.1.Stopped) (dEdxByE.body deltaX S) fuel
      (ParticleByE.Initialize S rev.EnergyPerNucleon,
        AddPoint [] ((ParticleByE.Initialize S rev.EnergyPerNucleon).Range / mm)
          ((ParticleByE.Initialize S rev.EnergyPerNucleon).DEDX / (MeV / mm))) with
    | none => rfl
    | some st => rfl

/-- C12: for every curve, target range, step and amount of fuel, `dEdxSliceX`
returns exactly when `dEdxByE` does, with the same derived energy and the same
sample sequence, because each step function of `dEdxSliceX.cxx` acts on the
members as that of `dEdxByE.cxx` does; and `ComputeRangeByE(E, deltaX, S)` returns
exactly when the Bragg-curve part of `dEdxByE` run from the energy `E` does, with
`1000` times the range of its last sample. -/
theorem variants_agree (fuel : Nat) (S : ℚ → ℚ) (targetRange deltaX E : ℚ) :
    (dEdxSliceX fuel S targetRange deltaX).map
        (fun o => (o.energyPerNucleon, o.braggCurve)) =
      (dEdxByE fuel S targetRange deltaX).map (fun o => (o.energyPerNucleon, o.result)) ∧
    (∀ p : ParticleSliceX, (p.Step deltaX S).toByE = p.toByE.Step deltaX S) ∧
    (∀ p : ReverseParticleSliceX,
      (p.ReverseStep deltaX S).toByE = p.toByE.ReverseStep deltaX S) ∧
    ComputeRangeByE fuel E deltaX S =
      (dEdxByE.forward fuel S deltaX E).bind
        (fun s => s.2.getLast?.map (fun q => 1000 * q.1)) ∧
    dEdxByE fuel S targetRange deltaX =
      (dEdxByE.reverse fuel S targetRange deltaX).bind (fun rev =>
        (dEdxByE.forward fuel S deltaX rev.EnergyPerNucleon).map
          (fun s => ⟨rev.EnergyPerNucleon, s.1, s.2⟩)) := by
  refine ⟨?_, ParticleSliceX.toByE_Step deltaX S,
    ReverseParticleSliceX.toByE_ReverseStep deltaX S, ?_,
    dEdxByE_eq_bind fuel S targetRange deltaX⟩
  · rw [← dEdxSliceX_toByE]
    cases dEdxSliceX fuel S targetRange deltaX with
    | none => rfl
    | some out => rfl
  · have hfst := forward_fst fuel deltaX S (ParticleByE.Initialize S E)
      (AddPoint [] ((ParticleByE.Initialize S E).Range / mm)
        ((ParticleByE.Initialize S E).DEDX / (MeV / mm)))
    have hfw : dEdxByE.forward fuel S deltaX E =
        whileNot (fun s : ParticleByE × TGraph => s.1.Stopped) (dEdxByE.body deltaX S) fuel
          (ParticleByE.Initialize S E,
            AddPoint [] ((ParticleByE.Initialize S E).Range / mm)
              ((ParticleByE.Initialize S E).DEDX / (MeV / mm))) := rfl
    unfold ComputeRangeByE
    rw [hfst, ← hfw]
    cases hcase : dEdxByE.forward fuel S deltaX E with
    | none => rfl
    | some st =>
      obtain ⟨p, g⟩ := st
      have hlast := forward_last fuel deltaX E S p g hcase
      simp only [Option.map_some', Option.some_bind, hlast, sample_eq, ParticleByE.Range]
      congr 1
      ring

/-! ## Rows of the data file -/

theorem readR_energy (i : Nat) (s : StringStream × ParseVars) :
    (readR i s).2.energy = s.2.energy := rfl

theorem readR_r_of_ne (i j : Nat) (s : StringStream × ParseVars) (h : j ≠ i) :
    (readR i s).2.r j = s.2.r j := by
  simp [readR, Function.update_noteq h]

theorem readDummy_energy (s : StringStream × ParseVars) :
    (readDummy s).2.energy = s.2.energy := rfl

theorem readDummy_r (s : StringStream × ParseVars) : (readDummy s).2.r = s.2.r := rfl

/-- A line that starts with ten numbers: the energy and the fifth value are
read, whatever follows. -/
theorem readRow_of_numbers (vars : ParseVars) (e v0 d0 v1 d1 v2 d2 v3 d3 v4 : ℚ)
    (tail : List Token) :
    (readRow vars (Token.number e :: Token.number v0 :: Token.number d0 ::
        Token.number v1 :: Token.number d1 :: Token.number v2 :: Token.number d2 ::
        Token.number v3 :: Token.number d3 :: Token.number v4 :: tail)).energy = e ∧
      (readRow vars (Token.number e :: Token.number v0 :: Token.number d0 ::
        Token.number v1 :: Token.number d1 :: Token.number v2 :: Token.number d2 ::
        Token.number v3 :: Token.number d3 :: Token.number v4 :: tail)).r 4 = v4 := by
  unfold readRow
  constructor
  · simp only [readR_energy, readDummy_energy]
    simp [readEnergy, StringStream.extract]
  · rw [readR_r_of_ne 9 4 _ (by decide), readDummy_r, readR_r_of_ne 8 4 _ (by decide),
      readDummy_r, readR_r_of_ne 7 4 _ (by decide), readDummy_r,
      readR_r_of_ne 6 4 _ (by decide), readDummy_r, readR_r_of_ne 5 4 _ (by decide),
      readDummy_r]
    simp [readEnergy, readR, readDummy, StringStream.extract]

theorem parse_loop_of_numbers (rows : List Row)
    (hgood : ∀ row ∈ rows, ∀ i, i < 4 → ∃ q, row.token i = Token.number q) :
    ∀ (vars : ParseVars) (g : TGraph),
      ParseDEDXData.loop vars g (rows.map Row.line) =
        g ++ rows.map (fun row => (row.energy, row.value 4)) := by
  induction rows with
  | nil => intro vars g; simp [ParseDEDXData.loop]
  | cons row rows ih =>
    intro vars g
    obtain ⟨q0, h0⟩ := hgood row (List.mem_cons_self _ _) 0 (by decide)
    obtain ⟨q1, h1⟩ := hgood row (List.mem_cons_self _ _) 1 (by decide)
    obtain ⟨q2, h2⟩ := hgood row (List.mem_cons_self _ _) 2 (by decide)
    obtain ⟨q3, h3⟩ := hgood row (List.mem_cons_self _ _) 3 (by decide)
    have hrow := readRow_of_numbers vars row.energy (row.value 0) q0 (row.value 1) q1
      (row.value 2) q2 (row.value 3) q3 (row.value 4)
      [row.token 4, Token.number (row.value 5), row.token 5, Token.number (row.value 6),
        row.token 6, Token.number (row.value 7), row.token 7, Token.number (row.value 8),
        row.token 8, Token.number (row.value 9), row.token 9]
    have hline : Row.line row = Token.number row.energy :: Token.number (row.value 0) ::
        Token.number q0 :: Token.number (row.value 1) :: Token.number q1 ::
        Token.number (row.value 2) :: Token.number q2 :: Token.number (row.value 3) ::
        Token.number q3 :: Token.number (row.value 4) ::
        [row.token 4, Token.number (row.value 5), row.token 5, Token.number (row.value 6),
          row.token 6, Token.number (row.value 7), row.token 7, Token.number (row.value 8),
          row.token 8, Token.number (row.value 9), row.token 9] := by
      simp [Row.line, h0, h1, h2, h3]
    rw [List.map_cons, ParseDEDXData.loop, hline, hrow.1, hrow.2,
      ih (fun r hr => hgood r (List.mem_cons_of_mem _ hr))]
    simp [AddPoint]

/-- C13 (as stated, refuted): after three skipped lines, a first row whose tokens
are numbers gives the point `(1, 14)`, its energy and fifth value; a second row
with energy `2` and fifth value `24` whose tokens are text gives the point
`(2, 14)`: the first token stops the extraction and `r[4]` keeps the value of the
row before. -/
theorem parse_text_tokens :
    ParseDEDXData ⟨0, fun _ => 0, 0⟩
        (some [[], [], [],
          Row.line ⟨1, fun i => 10 + i, fun _ => Token.number 0⟩,
          Row.line ⟨2, fun i => 20 + i, fun _ => Token.text⟩]) =
      some [(1, 14), (2, 14)] ∧
    ((⟨2, fun i => 20 + i, fun _ => Token.text⟩ : Row).energy,
      (⟨2, fun i => 20 + i, fun _ => Token.text⟩ : Row).value 4) = (2, 24) := by
  constructor
  · simp [ParseDEDXData, ParseDEDXData.loop, readRow, readEnergy, readR, readDummy,
      StringStream.extract, Row.line, AddPoint, Function.update_apply]
    norm_num
  · norm_num

/-- C13 (amended): `ParseDEDXData` skips the first three lines and, for every
following row made of an energy value followed by ten pairs of a value and a
token, adds to the curve the point made of the energy and the fifth value of the
row (index 4), provided the tokens before the fifth value (indices 0 to 3) read
as numbers; the later tokens may be anything. -/
theorem parse_rows (vars : ParseVars) (h1 h2 h3 : List Token) (rows : List Row)
    (hgood : ∀ row ∈ rows, ∀ i, i < 4 → ∃ q, row.token i = Token.number q) :
    ParseDEDXData vars (some (h1 :: h2 :: h3 :: rows.map Row.line)) =
      some (rows.map (fun row => (row.energy, row.value 4))) := by
  simp only [ParseDEDXData, List.drop_succ_cons, List.drop_zero]
  rw [parse_loop_of_numbers rows hgood vars []]
  simp

/-- C13 (amended), at a concrete input: two rows whose first four tokens are the
number `0` and whose later tokens are text. -/
theorem parse_rows_witness :
    ParseDEDXData ⟨0, fun _ => 0, 0⟩
        (some ([] :: [] :: [] ::
          [(⟨1, fun i => 10 + i, fun i => if i < 4 then Token.number 0 else Token.text⟩ : Row),
            ⟨2, fun i => 20 + i, fun i => if i < 4 then Token.number 0 else Token.text⟩].map
            Row.line)) =
      some ([(⟨1, fun i => 10 + i, fun i => if i < 4 then Token.number 0 else Token.text⟩ : Row),
        ⟨2, fun i => 20 + i, fun i => if i < 4 then Token.number 0 else Token.text⟩].map
        (fun row => (row.energy, row.value 4))) :=
  parse_rows ⟨0, fun _ => 0, 0⟩ [] [] [] _
    (by
      intro row hrow i hi
      simp only [List.mem_cons, List.mem_singleton, List.not_mem_nil, or_false] at hrow
      rcases hrow with h | h <;> exact ⟨0, by simp [h, hi]⟩)

/-! ## Rounding to the nearest double -/

theorem floor_le_roundHalfEven (q : ℚ) : ⌊q⌋ ≤ roundHalfEven q := by
  unfold roundHalfEven
  split_ifs <;> omega

theorem roundHalfEven_le_floor_add_one (q : ℚ) : roundHalfEven q ≤ ⌊q⌋ + 1 := by
  unfold roundHalfEven
  split_ifs <;> omega

theorem roundHalfEven_intCast (n : ℤ) : roundHalfEven (n : ℚ) = n := by
  unfold roundHalfEven
  simp

theorem le_roundHalfEven (q : ℚ) (k : ℤ) (h : (k : ℚ) ≤ q) : k ≤ roundHalfEven q :=
  le_trans (Int.le_floor.mpr h) (floor_le_roundHalfEven q)

theorem roundHalfEven_le (q : ℚ) (k : ℤ) (h : q ≤ (k : ℚ)) : roundHalfEven q ≤ k := by
  by_cases hq : q - ⌊q⌋ < 1 / 2
  · have : roundHalfEven q = ⌊q⌋ := by unfold roundHalfEven; rw [if_pos hq]
    rw [this]
    exact Int.cast_le.mp (le_trans (Int.floor_le q) h)
  · have hlt : (⌊q⌋ : ℚ) < k := by
      have := Int.floor_le q
      push_neg at hq
      linarith
    have hlt' : ⌊q⌋ < k := by exact_mod_cast hlt
    have := roundHalfEven_le_floor_add_one q
    omega

theorem roundHalfEven_eq (q : ℚ) (m : ℤ) (h1 : (m : ℚ) - 1 / 2 < q) (h2 : q < m + 1 / 2) :
    roundHalfEven q = m := by
  rcases le_or_lt (m : ℚ) q with hle | hlt
  · have hf : ⌊q⌋ = m := by
      rw [Int.floor_eq_iff]
      constructor
      · exact hle
      · linarith
    have hq : q - ⌊q⌋ < 1 / 2 := by rw [hf]; linarith
    unfold roundHalfEven
    rw [if_pos hq, hf]
  · have hf : ⌊q⌋ = m - 1 := by
      rw [Int.floor_eq_iff]
      push_cast
      constructor <;> linarith
    have hq : ¬ (q - ⌊q⌋ < 1 / 2) := by rw [hf]; push_cast; linarith
    have hq' : 1 / 2 < q - ⌊q⌋ := by rw [hf]; push_cast; linarith
    unfold roundHalfEven
    rw [if_neg hq, if_pos hq', hf]
    ring

theorem two_zpow_pos (s : ℤ) : (0 : ℚ) < 2 ^ s := zpow_pos (by norm_num) s

theorem ulpExp_eq (x : ℚ) (e : ℤ) (h1 : (2 : ℚ) ^ e ≤ |x|) (h2 : |x| < 2 ^ (e + 1))
    (he : -1022 ≤ e) : ulpExp x = e - 52 := by
  have hpos : 0 < |x| := lt_of_lt_of_le (two_zpow_pos e) h1
  have hlog : Int.log 2 |x| = e := by
    apply le_antisymm
    · have := (Int.lt_zpow_iff_log_lt (b := 2) (by norm_num) hpos (x := e + 1)).mp
        (by exact_mod_cast h2)
      omega
    · exact (Int.zpow_le_iff_le_log (b := 2) (by norm_num) hpos).mp (by exact_mod_cast h1)
  unfold ulpExp
  rw [hlog, max_eq_left he]

theorem ulpExp_ge (x : ℚ) : -1074 ≤ ulpExp x := by
  unfold ulpExp
  have := le_max_right (Int.log 2 |x|) (-1022)
  omega

theorem abs_lt_ulp (x : ℚ) : |x| < 2 ^ (ulpExp x + 53) := by
  have h := Int.lt_zpow_succ_log_self (b := 2) (by norm_num) |x|
  have hle : Int.log 2 |x| + 1 ≤ ulpExp x + 53 := by
    unfold ulpExp
    have := le_max_left (Int.log 2 |x|) (-1022)
    omega
  calc |x| < ((2 : ℕ) : ℚ) ^ (Int.log 2 |x| + 1) := h
    _ = (2 : ℚ) ^ (Int.log 2 |x| + 1) := by norm_num
    _ ≤ 2 ^ (ulpExp x + 53) := zpow_le_zpow_right₀ (by norm_num) hle

theorem roundDouble_eq (x : ℚ) (e m : ℤ) (h1 : (2 : ℚ) ^ e ≤ |x|) (h2 : |x| < 2 ^ (e + 1))
    (he : -1022 ≤ e) (hm1 : (m : ℚ) - 1 / 2 < x / 2 ^ (e - 52))
    (hm2 : x / 2 ^ (e - 52) < m + 1 / 2) : roundDouble x = m * 2 ^ (e - 52) := by
  unfold roundDouble
  rw [ulpExp_eq x e h1 h2 he, roundHalfEven_eq _ m hm1 hm2]

theorem roundDouble_zero : roundDouble 0 = 0 := by
  simp [roundDouble, roundHalfEven]

theorem roundDouble_nonneg (x : ℚ) (h : 0 ≤ x) : 0 ≤ roundDouble x := by
  unfold roundDouble
  have h0 : ((0 : ℤ) : ℚ) ≤ x / 2 ^ ulpExp x := by
    simpa using div_nonneg h (le_of_lt (two_zpow_pos _))
  have := le_roundHalfEven _ 0 h0
  exact mul_nonneg (by exact_mod_cast this) (le_of_lt (two_zpow_pos _))

/-- Every `m * 2 ^ s` with `|m| < 2 ^ 53` and `s ≥ -1074` is a double. -/
theorem roundDouble_of_rep (m s : ℤ) (hm : |m| < 2 ^ 53) (hs : -1074 ≤ s) :
    roundDouble ((m : ℚ) * 2 ^ s) = m * 2 ^ s := by
  rcases eq_or_ne m 0 with h0 | h0
  · simp [h0, roundDouble_zero]
  have hx : |(m : ℚ) * 2 ^ s| = |(m : ℚ)| * 2 ^ s := by
    rw [abs_mul, abs_of_pos (two_zpow_pos s)]
  have hle : ulpExp ((m : ℚ) * 2 ^ s) ≤ s := by
    unfold ulpExp
    rcases le_or_lt (Int.log 2 |(m : ℚ) * 2 ^ s|) (-1022) with hl | hl
    · rw [max_eq_right hl]; omega
    · rw [max_eq_left (le_of_lt hl)]
      have hpos : 0 < |(m : ℚ) * 2 ^ s| := by
        rw [hx]
        exact mul_pos (abs_pos.mpr (by exact_mod_cast h0)) (two_zpow_pos s)
      have hlog := Int.zpow_log_le_self (b := 2) (by norm_num) hpos
      have hmq : |(m : ℚ)| < 2 ^ (53 : ℤ) := by
        have : ((|m| : ℤ) : ℚ) < ((2 ^ 53 : ℤ) : ℚ) := by exact_mod_cast hm
        rw [Int.cast_abs] at this
        calc |(m : ℚ)| < ((2 ^ 53 : ℤ) : ℚ) := this
          _ = 2 ^ (53 : ℤ) := by norm_num
      have hlt : ((2 : ℕ) : ℚ) ^ Int.log 2 |(m : ℚ) * 2 ^ s| < 2 ^ (s + 53) := by
        calc ((2 : ℕ) : ℚ) ^ Int.log 2 |(m : ℚ) * 2 ^ s| ≤ |(m : ℚ) * 2 ^ s| := hlog
          _ = |(m : ℚ)| * 2 ^ s := hx
          _ < 2 ^ (53 : ℤ) * 2 ^ s := mul_lt_mul_of_pos_right hmq (two_zpow_pos s)
          _ = 2 ^ (s + 53) := by rw [← zpow_add₀ (by norm_num : (2 : ℚ) ≠ 0)]; ring_nf
      have hlt' : (2 : ℚ) ^ Int.log 2 |(m : ℚ) * 2 ^ s| < 2 ^ (s + 53) := by
        simpa using hlt
      have := (zpow_lt_zpow_iff_right₀ (by norm_num : (1 : ℚ) < 2)).mp hlt'
      omega
  unfold roundDouble
  obtain ⟨n, hn⟩ := Int.eq_ofNat_of_zero_le (sub_nonneg.mpr hle)
  have hdiv : (m : ℚ) * 2 ^ s / 2 ^ ulpExp ((m : ℚ) * 2 ^ s) = ((m * 2 ^ n : ℤ) : ℚ) := by
    have hs' : s = ulpExp ((m : ℚ) * 2 ^ s) + n := by omega
    rw [div_eq_iff (ne_of_gt (two_zpow_pos _))]
    conv_lhs => rw [hs']
    rw [zpow_add₀ (by norm_num : (2 : ℚ) ≠ 0)]
    push_cast
    rw [zpow_natCast]
    ring
  rw [hdiv, roundHalfEven_intCast]
  rw [← hdiv]
  exact div_mul_cancel₀ _ (ne_of_gt (two_zpow_pos _))

theorem div_ulp_abs_lt (x : ℚ) : |x / 2 ^ ulpExp x| < 2 ^ (53 : ℤ) := by
  rw [abs_div, abs_of_pos (two_zpow_pos _), div_lt_iff₀ (two_zpow_pos _),
    ← zpow_add₀ (by norm_num : (2 : ℚ) ≠ 0)]
  have := abs_lt_ulp x
  rwa [add_comm] at this

theorem roundDouble_idem (x : ℚ) : roundDouble (roundDouble x) = roundDouble x := by
  have habs := abs_lt.mp (div_ulp_abs_lt x)
  have h53 : ((2 ^ 53 : ℤ) : ℚ) = 2 ^ (53 : ℤ) := by norm_num
  have hup : roundHalfEven (x / 2 ^ ulpExp x) ≤ 2 ^ 53 :=
    roundHalfEven_le _ _ (by rw [h53]; exact le_of_lt habs.2)
  have hlow : -(2 ^ 53) ≤ roundHalfEven (x / 2 ^ ulpExp x) :=
    le_roundHalfEven _ _ (by
      have h := habs.1
      norm_num at h ⊢
      linarith)
  have hs := ulpExp_ge x
  have hstep : ∀ t : ℤ, (2 : ℚ) ^ (t + 1) = 2 * 2 ^ t := by
    intro t; rw [zpow_add₀ (by norm_num : (2 : ℚ) ≠ 0)]; ring
  show roundDouble ((roundHalfEven (x / 2 ^ ulpExp x) : ℚ) * 2 ^ ulpExp x) =
    (roundHalfEven (x / 2 ^ ulpExp x) : ℚ) * 2 ^ ulpExp x
  rcases lt_or_eq_of_le hup with hlt | heq
  · rcases lt_or_eq_of_le hlow with hgt | heq'
    · exact roundDouble_of_rep _ _ (abs_lt.mpr ⟨hgt, hlt⟩) hs
    · rw [← heq']
      have h := roundDouble_of_rep (-(2 ^ 52)) (ulpExp x + 1) (by norm_num) (by omega)
      have he : ((-(2 ^ 53) : ℤ) : ℚ) * 2 ^ ulpExp x =
          ((-(2 ^ 52) : ℤ) : ℚ) * 2 ^ (ulpExp x + 1) := by
        rw [hstep]; push_cast; ring
      rw [he]; exact h
  · rw [heq]
    have h := roundDouble_of_rep (2 ^ 52) (ulpExp x + 1) (by norm_num) (by omega)
    have he : ((2 ^ 53 : ℤ) : ℚ) * 2 ^ ulpExp x = ((2 ^ 52 : ℤ) : ℚ) * 2 ^ (ulpExp x + 1) := by
      rw [hstep]; push_cast; ring
    rw [he]; exact h

/-- Rounding does not cross a double: a value at or below a double rounds to a
value at or below it. -/
theorem roundDouble_le (x y : ℚ) (hy : roundDouble y = y) (hxy : x ≤ y) : roundDouble x ≤ y := by
  rcases eq_or_ne x 0 with hx0 | hx0
  · rw [hx0, roundDouble_zero]; rw [hx0] at hxy; exact hxy
  rcases le_or_lt (ulpExp x) (ulpExp y) with hle | hlt
  · obtain ⟨n, hn⟩ := Int.eq_ofNat_of_zero_le (sub_nonneg.mpr hle)
    have hsy : ulpExp y = ulpExp x + n := by omega
    have hyrep : y = ((roundHalfEven (y / 2 ^ ulpExp y) * 2 ^ n : ℤ) : ℚ) * 2 ^ ulpExp x := by
      conv_lhs => rw [← hy]
      unfold roundDouble
      rw [hsy, zpow_add₀ (by norm_num : (2 : ℚ) ≠ 0), zpow_natCast]
      push_cast
      ring
    have hdiv : x / 2 ^ ulpExp x ≤
        ((roundHalfEven (y / 2 ^ ulpExp y) * 2 ^ n : ℤ) : ℚ) := by
      rw [div_le_iff₀ (two_zpow_pos _), ← hyrep]
      exact hxy
    have := roundHalfEven_le _ _ hdiv
    rw [hyrep]
    unfold roundDouble
    exact mul_le_mul_of_nonneg_right (by exact_mod_cast this) (le_of_lt (two_zpow_pos _))
  · have hlx : -1022 < Int.log 2 |x| ∧ ulpExp x = Int.log 2 |x| - 52 := by
      unfold ulpExp at hlt ⊢
      have h1 := le_max_right (Int.log 2 |y|) (-1022)
      rcases le_or_lt (Int.log 2 |x|) (-1022) with h | h
      · rw [max_eq_right h] at hlt; omega
      · exact ⟨h, by rw [max_eq_left (le_of_lt h)]⟩
    have hxpos : 0 < |x| := abs_pos.mpr hx0
    have hpow : (2 : ℚ) ^ (ulpExp x + 52) ≤ |x| := by
      have := Int.zpow_log_le_self (b := 2) (by norm_num) hxpos
      have he : ulpExp x + 52 = Int.log 2 |x| := by omega
      rw [he]; simpa using this
    have hylt : |y| < 2 ^ (ulpExp x + 52) :=
      lt_of_lt_of_le (abs_lt_ulp y) (zpow_le_zpow_right₀ (by norm_num) (by omega))
    have hxneg : x < 0 := by
      by_contra hcon
      push_neg at hcon
      rw [abs_of_nonneg hcon] at hpow
      have := le_abs_self y
      linarith
    rw [abs_of_neg hxneg] at hpow
    have hdiv : x / 2 ^ ulpExp x ≤ ((-(2 ^ 52) : ℤ) : ℚ) := by
      rw [div_le_iff₀ (two_zpow_pos _)]
      have : (2 : ℚ) ^ (ulpExp x + 52) = 2 ^ (52 : ℤ) * 2 ^ ulpExp x := by
        rw [← zpow_add₀ (by norm_num : (2 : ℚ) ≠ 0)]; ring_nf
      rw [this] at hpow
      push_cast
      norm_num at hpow ⊢
      linarith
    have hr := roundHalfEven_le _ _ hdiv
    have hval : roundDouble x ≤ -(2 ^ (ulpExp x + 52)) := by
      unfold roundDouble
      have : (2 : ℚ) ^ (ulpExp x + 52) = 2 ^ (52 : ℤ) * 2 ^ ulpExp x := by
        rw [← zpow_add₀ (by norm_num : (2 : ℚ) ≠ 0)]; ring_nf
      rw [this]
      have hc : ((roundHalfEven (x / 2 ^ ulpExp x) : ℤ) : ℚ) ≤ -(2 ^ (52 : ℤ)) := by
        have : ((roundHalfEven (x / 2 ^ ulpExp x) : ℤ) : ℚ) ≤ ((-(2 ^ 52) : ℤ) : ℚ) := by
          exact_mod_cast hr
        calc ((roundHalfEven (x / 2 ^ ulpExp x) : ℤ) : ℚ) ≤ ((-(2 ^ 52) : ℤ) : ℚ) := this
          _ = -(2 ^ (52 : ℤ)) := by norm_num
      have := mul_le_mul_of_nonneg_right hc (le_of_lt (two_zpow_pos (ulpExp x)))
      linarith
    have := neg_abs_le y
    linarith

theorem roundDouble_eq_pos (x : ℚ) (e m : ℤ) (h1 : (2 : ℚ) ^ e ≤ x) (h2 : x < 2 ^ (e + 1))
    (he : -1022 ≤ e) (hm1 : (m : ℚ) - 1 / 2 < x / 2 ^ (e - 52))
    (hm2 : x / 2 ^ (e - 52) < m + 1 / 2) : roundDouble x = m * 2 ^ (e - 52) := by
  have hpos : 0 < x := lt_of_lt_of_le (two_zpow_pos e) h1
  exact roundDouble_eq x e m (by rwa [abs_of_pos hpos]) (by rwa [abs_of_pos hpos]) he hm1 hm2

theorem roundDouble_intCast (z : ℤ) (hz : |z| < 2 ^ 53) : roundDouble (z : ℚ) = z := by
  have := roundDouble_of_rep z 0 hz (by norm_num)
  simpa using this

/-! ## The integrators in binary64 arithmetic -/

namespace Binary64

theorem Step_of_le_rounded (deltaX : ℚ) (S : ℚ → ℚ) (p : ParticleByE)
    (h : fsub p.fEnergyPerNucleon (fmul p.fDEDX deltaX) ≤ 0) :
    Step deltaX S p = ⟨fadd p.fRange deltaX, 0, 0⟩ := by
  unfold Step
  simp [ParticleByE.Stopped, h]

theorem Step_of_pos_rounded (deltaX : ℚ) (S : ℚ → ℚ) (p : ParticleByE)
    (h : 0 < fsub p.fEnergyPerNucleon (fmul p.fDEDX deltaX)) :
    Step deltaX S p = ⟨fadd p.fRange deltaX, fsub p.fEnergyPerNucleon (fmul p.fDEDX deltaX),
      S (fsub p.fEnergyPerNucleon (fmul p.fDEDX deltaX))⟩ := by
  unfold Step
  simp [ParticleByE.Stopped, not_le.mpr h]

theorem ReverseStep_eq_rounded (deltaX : ℚ) (S : ℚ → ℚ) (p : ReverseParticleByE) :
    ReverseStep deltaX S p =
      ⟨S p.fEnergyPerNucleon,
        fadd p.fEnergyPerNucleon (fmul (S p.fEnergyPerNucleon) deltaX),
        if fsub p.fRange deltaX ≤ 0 then 0 else fsub p.fRange deltaX⟩ := by
  unfold ReverseStep
  by_cases h : fsub p.fRange deltaX ≤ 0 <;> simp [ReverseParticleByE.Returned, h]

theorem forwardState_succ_rounded (deltaX : ℚ) (S : ℚ → ℚ) (e : ℚ) (k : Nat) :
    forwardState deltaX S e (k + 1) = Step deltaX S (forwardState deltaX S e k) := by
  unfold forwardState
  rw [Function.iterate_succ_apply']

theorem reverseState_succ_rounded (deltaX : ℚ) (S : ℚ → ℚ) (r : ℚ) (k : Nat) :
    reverseState deltaX S r (k + 1) = ReverseStep deltaX S (reverseState deltaX S r k) := by
  unfold reverseState
  rw [Function.iterate_succ_apply']

/-- Every forward state is either freshly evaluated on the curve or clamped. -/
theorem forwardState_inv_rounded (deltaX : ℚ) (S : ℚ → ℚ) (e : ℚ) (k : Nat) :
    (forwardState deltaX S e k).fDEDX = S (forwardState deltaX S e k).fEnergyPerNucleon ∨
      ((forwardState deltaX S e k).fEnergyPerNucleon = 0 ∧
        (forwardState deltaX S e k).fDEDX = 0) := by
  cases k with
  | zero => left; rfl
  | succ k =>
    rw [forwardState_succ_rounded]
    rcases le_or_lt (fsub (forwardState deltaX S e k).fEnergyPerNucleon
      (fmul (forwardState deltaX S e k).fDEDX deltaX)) 0 with h | h
    · rw [Step_of_le_rounded deltaX S _ h]; right; exact ⟨rfl, rfl⟩
    · rw [Step_of_pos_rounded deltaX S _ h]; left; rfl

theorem forwardState_dedx_of_running_rounded (deltaX : ℚ) (S : ℚ → ℚ) (e : ℚ) (k : Nat)
    (h : (forwardState deltaX S e k).Stopped = false) :
    (forwardState deltaX S e k).fDEDX = S (forwardState deltaX S e k).fEnergyPerNucleon := by
  rcases forwardState_inv_rounded deltaX S e k with h1 | ⟨h1, _⟩
  · exact h1
  · rw [ParticleByE.Stopped_false_iff, h1] at h
    exact absurd h (lt_irrefl 0)

/-- The energy of every forward state is a double when the initial energy is. -/
theorem forwardState_energy_double (deltaX : ℚ) (S : ℚ → ℚ) (e : ℚ)
    (he : roundDouble e = e) (k : Nat) :
    roundDouble (forwardState deltaX S e k).fEnergyPerNucleon =
      (forwardState deltaX S e k).fEnergyPerNucleon := by
  cases k with
  | zero => exact he
  | succ k =>
    rw [forwardState_succ_rounded]
    rcases le_or_lt (fsub (forwardState deltaX S e k).fEnergyPerNucleon
      (fmul (forwardState deltaX S e k).fDEDX deltaX)) 0 with h | h
    · rw [Step_of_le_rounded deltaX S _ h]; exact roundDouble_zero
    · rw [Step_of_pos_rounded deltaX S _ h]; exact roundDouble_idem _

end Binary64

/-! ## Energy monotonicity in binary64 arithmetic -/

/-- C6 (as stated, refuted): in binary64 arithmetic, on the constant curve
`2 ^ (-60)` with step `1`, the state after `Initialize(1)` is not stopped and has
a positive stopping power, yet one `Step` leaves the energy at `1`: the product
`2 ^ (-60) * 1` is below half a unit in the last place of `1` and the
subtraction returns `1`. -/
theorem energy_not_strictly_decreasing :
    (ParticleByE.Initialize (fun _ => 1 / 2 ^ 60) 1).Stopped = false ∧
      0 < (ParticleByE.Initialize (fun _ => 1 / 2 ^ 60) 1).DEDX ∧
      (Binary64.Step 1 (fun _ => 1 / 2 ^ 60)
        (ParticleByE.Initialize (fun _ => 1 / 2 ^ 60) 1)).EnergyPerNucleon = 1 ∧
      ¬ (Binary64.Step 1 (fun _ => 1 / 2 ^ 60)
          (ParticleByE.Initialize (fun _ => 1 / 2 ^ 60) 1)).EnergyPerNucleon <
        (ParticleByE.Initialize (fun _ => 1 / 2 ^ 60) 1).EnergyPerNucleon := by
  have hmul : fmul (1 / 2 ^ 60) 1 = 1 / 2 ^ 60 := by
    have h := roundDouble_of_rep 1 (-60) (by norm_num) (by norm_num)
    unfold fmul
    have he : (1 : ℚ) / 2 ^ 60 * 1 = ((1 : ℤ) : ℚ) * 2 ^ (-60 : ℤ) := by norm_num
    rw [he, h]
    norm_num
  have hsub : fsub 1 (1 / 2 ^ 60) = 1 := by
    unfold fsub
    rw [roundDouble_eq_pos (1 - 1 / 2 ^ 60) (-1) (2 ^ 53) (by norm_num) (by norm_num)
      (by norm_num) (by norm_num) (by norm_num)]
    norm_num
  have hstep : Binary64.Step 1 (fun _ => 1 / 2 ^ 60)
      (ParticleByE.Initialize (fun _ => 1 / 2 ^ 60) 1) = ⟨fadd 0 1, 1, 1 / 2 ^ 60⟩ := by
    have h := Binary64.Step_of_pos_rounded 1 (fun _ => 1 / 2 ^ 60)
      (ParticleByE.Initialize (fun _ => 1 / 2 ^ 60) 1)
      (by
        show 0 < fsub 1 (fmul (1 / 2 ^ 60) 1)
        rw [hmul, hsub]; norm_num)
    rw [h]
    show (⟨fadd 0 1, fsub 1 (fmul (1 / 2 ^ 60) 1), 1 / 2 ^ 60⟩ : ParticleByE) = _
    rw [hmul, hsub]
  refine ⟨?_, ?_, ?_, ?_⟩
  · simp [ParticleByE.Initialize, ParticleByE.Stopped]
  · simp [ParticleByE.Initialize, ParticleByE.DEDX]
  · rw [hstep]; rfl
  · rw [hstep]
    simp [ParticleByE.Initialize, ParticleByE.EnergyPerNucleon]

/-- C6 (amended): in binary64 arithmetic, for every `deltaX > 0`, every curve that
is non-negative at every positive energy and every forward state reached from
`Initialize(E)`, `E` a double, that is not stopped, one `Step` does not increase
the energy; hence along the forward loop (while no state is stopped) the energy
sequence is non-increasing. -/
theorem energy_nonincreasing (deltaX E : ℚ) (S : ℚ → ℚ) (hdx : 0 < deltaX)
    (hS : ∀ e, 0 < e → 0 ≤ S e) (hE : roundDouble E = E) :
    (∀ n, (Binary64.forwardState deltaX S E n).Stopped = false →
      (Binary64.forwardState deltaX S E (n + 1)).EnergyPerNucleon ≤
        (Binary64.forwardState deltaX S E n).EnergyPerNucleon) ∧
      ∀ m, (∀ k, k < m → (Binary64.forwardState deltaX S E k).Stopped = false) →
        ∀ i j, i ≤ j → j ≤ m →
          (Binary64.forwardState deltaX S E j).EnergyPerNucleon ≤
            (Binary64.forwardState deltaX S E i).EnergyPerNucleon := by
  have hstep : ∀ n, (Binary64.forwardState deltaX S E n).Stopped = false →
      (Binary64.forwardState deltaX S E (n + 1)).EnergyPerNucleon ≤
        (Binary64.forwardState deltaX S E n).EnergyPerNucleon := by
    intro n hrun
    simp only [ParticleByE.EnergyPerNucleon]
    have hd := Binary64.forwardState_dedx_of_running_rounded deltaX S E n hrun
    have hpos := (ParticleByE.Stopped_false_iff _).mp hrun
    have hdbl := Binary64.forwardState_energy_double deltaX S E hE n
    have hnn : 0 ≤ (Binary64.forwardState deltaX S E n).fDEDX := by rw [hd]; exact hS _ hpos
    have hprod : 0 ≤ fmul (Binary64.forwardState deltaX S E n).fDEDX deltaX :=
      roundDouble_nonneg _ (mul_nonneg hnn (le_of_lt hdx))
    have hle : fsub (Binary64.forwardState deltaX S E n).fEnergyPerNucleon
        (fmul (Binary64.forwardState deltaX S E n).fDEDX deltaX) ≤
        (Binary64.forwardState deltaX S E n).fEnergyPerNucleon :=
      roundDouble_le _ _ hdbl (by linarith)
    rw [Binary64.forwardState_succ_rounded]
    rcases le_or_lt (fsub (Binary64.forwardState deltaX S E n).fEnergyPerNucleon
      (fmul (Binary64.forwardState deltaX S E n).fDEDX deltaX)) 0 with h | h
    · rw [Binary64.Step_of_le_rounded deltaX S _ h]
      exact le_of_lt hpos
    · rw [Binary64.Step_of_pos_rounded deltaX S _ h]
      exact hle
  refine ⟨hstep, ?_⟩
  intro m hrun i j hij
  induction j with
  | zero =>
    intro _
    have : i = 0 := by omega
    rw [this]
  | succ j ih =>
    intro hjm
    rcases Nat.eq_or_lt_of_le hij with heq | hlt
    · rw [heq]
    · exact le_trans (hstep j (hrun j (by omega))) (ih (by omega) (by omega))

/-- C6 (amended), at a concrete input: constant curve `2 ^ (-60)`, step `1`,
energy `1`, where the step leaves the energy unchanged. -/
theorem energy_nonincreasing_witness :
    (Binary64.forwardState 1 (fun _ => 1 / 2 ^ 60) 1 1).EnergyPerNucleon ≤
      (Binary64.forwardState 1 (fun _ => 1 / 2 ^ 60) 1 0).EnergyPerNucleon :=
  (energy_nonincreasing 1 1 (fun _ => 1 / 2 ^ 60) (by norm_num)
    (fun _ _ => by norm_num) (roundDouble_intCast 1 (by norm_num))).1 0
    (by simp [Binary64.forwardState, ParticleByE.Initialize, ParticleByE.Stopped])

/-! ## Runs with the step `0.1` in binary64 arithmetic -/

theorem Binary64.reverseState_energy_rounded (deltaX : ℚ) (S : ℚ → ℚ) (r : ℚ) (k : Nat) :
    (Binary64.reverseState deltaX S r k).fEnergyPerNucleon =
      (fun e => fadd e (fmul (S e) deltaX))^[k] 0 := by
  induction k with
  | zero => rfl
  | succ k ih =>
    rw [Binary64.reverseState_succ_rounded, Binary64.ReverseStep_eq_rounded, Function.iterate_succ_apply',
      ← ih]

theorem Binary64.reverse_energy_zero_rounded (deltaX : ℚ) (S : ℚ → ℚ) (hS : S 0 = 0) (k : Nat) :
    (fun e => fadd e (fmul (S e) deltaX))^[k] 0 = 0 := by
  induction k with
  | zero => rfl
  | succ k ih =>
    rw [Function.iterate_succ_apply', ih]
    simp [hS, fadd, fmul, roundDouble_zero]

/-- C3 (amended): on the curve through `(0, 0)` and `(10, 1)`, with step `0.1`
and initial energy `1.0`, the forward particle is stopped after no step count, so
the forward loop does not return; and whenever the reverse loop run from a range
with the same curve and step returns, it returns the energy exactly `0` (the
curve is `0` at `0`), in exact and in binary64 arithmetic alike. -/
theorem concrete_scenario_never_stops :
    (∀ n : Nat, (forwardState (1 / 10) (linearEval 0 0 10 1) 1 n).Stopped = false) ∧
      (∀ fuel, ComputeRangeByE fuel 1 (1 / 10) (linearEval 0 0 10 1) = none) ∧
      (∀ (R : ℚ) (fuel : Nat) (rev : ReverseParticleByE),
        whileNot ReverseParticleByE.Returned
            (ReverseParticleByE.ReverseStep (1 / 10) (linearEval 0 0 10 1)) fuel
            (ReverseParticleByE.Initialize R) = some rev →
          rev.EnergyPerNucleon = 0) ∧
      ∀ (R : ℚ) (fuel : Nat) (rev : ReverseParticleByE),
        whileNot ReverseParticleByE.Returned
            (Binary64.ReverseStep tenth (linearEval 0 0 10 1)) fuel
            (ReverseParticleByE.Initialize R) = some rev →
          rev.EnergyPerNucleon = 0 := by
  have hS : ∀ e, linearEval 0 0 10 1 e = e * (1 / 10) := fun e => by
    rw [linearEval_tenth]; ring
  have hS0 : linearEval 0 0 10 1 0 = 0 := by norm_num [linearEval]
  have hrun := forwardState_geometric_running (1 / 10) (1 / 10) (linearEval 0 0 10 1) hS
    (by norm_num)
  refine ⟨hrun, ?_, ?_, ?_⟩
  · intro fuel
    unfold ComputeRangeByE
    rw [whileNot_never ParticleByE.Stopped _ _ hrun fuel]
    rfl
  · intro R fuel rev h
    obtain ⟨n, _, hrev, _, _⟩ := whileNot_some _ _ fuel _ rev h
    have hrs : rev = reverseState (1 / 10) (linearEval 0 0 10 1) R n := hrev
    rw [hrs]
    show (reverseState (1 / 10) (linearEval 0 0 10 1) R n).fEnergyPerNucleon = 0
    rw [reverseState_energy]
    exact reverse_energy_zero (1 / 10) (linearEval 0 0 10 1) hS0 n
  · intro R fuel rev h
    obtain ⟨n, _, hrev, _, _⟩ := whileNot_some _ _ fuel _ rev h
    have hrs : rev = Binary64.reverseState tenth (linearEval 0 0 10 1) R n := hrev
    rw [hrs]
    show (Binary64.reverseState tenth (linearEval 0 0 10 1) R n).fEnergyPerNucleon = 0
    rw [Binary64.reverseState_energy_rounded]
    exact Binary64.reverse_energy_zero_rounded tenth (linearEval 0 0 10 1) hS0 n

/-- C3 (amended), at a concrete input: the reverse loop from the range `1/5`
returns after two reverse steps, with energy `0`. -/
theorem concrete_scenario_never_stops_witness :
    (⟨0, 0, 0⟩ : ReverseParticleByE).EnergyPerNucleon = 0 :=
  concrete_scenario_never_stops.2.2.1 (1 / 5) 2 ⟨0, 0, 0⟩
    (by
      norm_num [whileNot, ReverseParticleByE.ReverseStep_eq, ReverseParticleByE.Returned,
        ReverseParticleByE.Initialize, linearEval])

end BraggCurve
